import Mathlib

/-!
Verification of the FiTui interactive ledger core against its design
specification.  The Rust sources (`db.rs`, `app.rs`, `handlers.rs`) are
shallowly embedded below: SQLite tables become explicit lists of rows,
`f64` amounts become rationals, and every handler becomes a pure function
from the application state and store state to their successors.
-/

namespace FiTui

/-! ## Transaction kinds and tags

Modelled from the spec: `models.rs` is not part of the sources at hand; the
spec (§3) fixes kind as exactly one of Credit | Debit and tags as string
labels compared by value.  `from_str` follows the reference match in
`main.rs` (`"credit" => Credit, _ => Debit`); `as_str` is its inverse on
the two canonical strings. -/

inductive TransactionType where
  | credit
  | debit
  deriving DecidableEq, Repr

/-- Modelled from the spec: string stored for a kind (`models.rs` missing);
the store queries filter on the literal strings "credit" / "debit". -/
def TransactionType.as_str : TransactionType → String
  | .credit => "credit"
  | .debit => "debit"

/-- Modelled from the spec: parsing a stored kind string, following the
reference match in `main.rs` ("credit" maps to Credit, anything else to
Debit). -/
def TransactionType.from_str (s : String) : TransactionType :=
  if s = "credit" then .credit else .debit

/-- Modelled from the spec: a Tag is a string label compared by value
(`models.rs` missing; `app.rs` builds `Tag("other".into())` directly). -/
abbrev Tag := String

/-! ## Decimal text machinery

The form keeps the amount as free text; `app.rs` renders an amount with
two fixed decimals when editing and parses the text back on submit with a
`0.0` fallback.  The printer and parser are embedded here over rationals.
All recursions are structural so concrete runs reduce in the kernel. -/

/-- Little-endian base-10 digits of `n`, with explicit fuel (the fuel `n`
itself always suffices); structural recursion so it evaluates by `decide`. -/
def toDigitsRev : Nat → Nat → List Nat
  | 0, _ => []
  | _ + 1, 0 => []
  | fuel + 1, n + 1 => (n + 1) % 10 :: toDigitsRev fuel ((n + 1) / 10)

/-- Decimal digit characters of `n`, most significant first, "0" for zero. -/
def natToChars (n : Nat) : List Char :=
  if n = 0 then ['0'] else ((toDigitsRev n n).map Nat.digitChar).reverse

/-- Numeric value of a digit character. -/
def charVal (c : Char) : Nat := c.toNat - 48

/-- Value of a big-endian digit-character string. -/
def valChars (cs : List Char) : Nat := Nat.ofDigits 10 ((cs.map charVal).reverse)

/-- Test that every character is a decimal digit. -/
def allDigits (cs : List Char) : Bool := cs.all (·.isDigit)

/-- Fractional-part digits padded to width two (values below 100). -/
def pad2 (m : Nat) : List Char :=
  if m < 10 then '0' :: natToChars m else natToChars m

/-- Rounding of `q * 100` to an integer; models the rounding Rust performs
when formatting an amount with two fixed decimals.  Modeling note: Rust
rounds an exact binary tie to even while this rounds half up; the two can
differ only at exact tie points, none of which lie on the 0.01 grid the
round-trip theorems quantify over. -/
def round2 (q : ℚ) : ℤ := ⌊q * 100 + 1 / 2⌋

/-- Embedding of the Rust two-decimal rendering of an amount used by
`begin_edit_selected` in `app.rs`. -/
def formatFixed2 (q : ℚ) : String :=
  let n := round2 q
  let m := n.natAbs
  let core := natToChars (m / 100) ++ '.' :: pad2 (m % 100)
  if n < 0 then String.mk ('-' :: core) else String.mk core

/-- Exponent parser for the `e`/`E` suffix of the Rust float grammar:
an optional sign followed by at least one digit. -/
def parseExp (cs : List Char) : Option ℤ :=
  match cs with
  | [] => none
  | c :: rest =>
      if c = '-' then
        if rest ≠ [] ∧ allDigits rest = true then some (-(valChars rest : ℤ)) else none
      else if c = '+' then
        if rest ≠ [] ∧ allDigits rest = true then some (valChars rest : ℤ) else none
      else if allDigits (c :: rest) = true then some (valChars (c :: rest) : ℤ)
      else none

/-- Unsigned parser for the finite-number fragment of the Rust `f64`
grammar used at submit time: digits, an optional dot with further digits
(at least one digit in the mantissa overall), and an optional `e`/`E`
exponent.  The non-finite keywords of the grammar (`inf`, `infinity`,
`nan`) have no rational counterpart and are recognised separately by
`nonFiniteAmountText`. -/
def parseUnsigned (cs : List Char) : Option ℚ :=
  let ip := cs.takeWhile (·.isDigit)
  let rest := cs.dropWhile (·.isDigit)
  if rest = [] then
    if ip.isEmpty then none else some (valChars ip)
  else if rest.head? = some '.' then
    let afterDot := rest.tail
    let frac := afterDot.takeWhile (·.isDigit)
    let rest2 := afterDot.dropWhile (·.isDigit)
    if ip.isEmpty && frac.isEmpty then none
    else
      let mant : ℚ := (valChars ip : ℚ) + (valChars frac : ℚ) / (10 : ℚ) ^ frac.length
      if rest2 = [] then some mant
      else if rest2.head? = some 'e' ∨ rest2.head? = some 'E' then
        (parseExp rest2.tail).map (fun e => mant * (10 : ℚ) ^ e)
      else none
  else if rest.head? = some 'e' ∨ rest.head? = some 'E' then
    if ip.isEmpty then none
    else (parseExp rest.tail).map (fun e => (valChars ip : ℚ) * (10 : ℚ) ^ e)
  else none

/-- Signed decimal parser (optional leading sign, as in Rust). -/
def parseSigned (cs : List Char) : Option ℚ :=
  match cs with
  | [] => none
  | c :: rest =>
      if c = '-' then (parseUnsigned rest).map (fun q => -q)
      else if c = '+' then parseUnsigned rest
      else parseUnsigned (c :: rest)

/-- Whitespace trimming on both ends, as Rust `str::trim` does before the
amount parse in `save_transaction`. -/
def trimChars (cs : List Char) : List Char :=
  ((cs.dropWhile Char.isWhitespace).reverse.dropWhile Char.isWhitespace).reverse

/-- Embedding of `self.form.amount.trim().parse::<f64>()` from `app.rs`
on the finite-number fragment of the float grammar: trim, then parse a
signed decimal with optional exponent; `none` models `Err`.  On the
non-finite keyword forms (recognised by `nonFiniteAmountText`) Rust
succeeds with a non-finite float, which the rational model cannot carry,
so theorems about parse failure exclude those forms explicitly. -/
def parseAmount (s : String) : Option ℚ := parseSigned (trimChars s.data)

/-- Recogniser for the non-finite keyword forms of the Rust `f64` grammar:
an optional sign followed by `inf`, `infinity` or `nan`, case-insensitive,
after trimming.  Rust parses these successfully (to a non-finite float);
they are the only trimmed inputs on which `parseAmount` fails while the
Rust parse does not. -/
def nonFiniteAmountText (s : String) : Bool :=
  let cs := trimChars s.data
  let body :=
    match cs with
    | [] => ([] : List Char)
    | c :: rest => if c = '-' ∨ c = '+' then rest else c :: rest
  let lower := body.map Char.toLower
  lower == "inf".data || lower == "infinity".data || lower == "nan".data

/-! ## The ledger store

The SQLite database of `db.rs` is embedded as two tables of rows in
insertion order together with the next AUTOINCREMENT ids.  Kinds and tags
are stored as the strings the Rust code writes (`kind.as_str()`,
`tag.as_str()`). -/

/-- Row of the `transactions` table as created by `init_db` in `db.rs`. -/
structure TxRow where
  id : ℤ
  source : String
  amount : ℚ
  kind : String
  tag : String
  date : String
  deriving DecidableEq, Repr

/-- Row of the `recurring_entries` table (`active` is stored as an integer
in SQLite; the embedding keeps the boolean it encodes). -/
structure RecRow where
  id : ℤ
  source : String
  amount : ℚ
  kind : String
  tag : String
  last_inserted_month : String
  active : Bool
  deriving DecidableEq, Repr

/-- The store: both tables in insertion order plus the AUTOINCREMENT
counters of the two primary keys. -/
structure Db where
  transactions : List TxRow
  nextTxId : ℤ
  recurring : List RecRow
  nextRecId : ℤ
  deriving DecidableEq, Repr

/-- In-memory transaction as produced by `get_transactions` in `db.rs`:
kind and tag strings are decoded with `from_str`. -/
structure Transaction where
  id : ℤ
  source : String
  amount : ℚ
  kind : TransactionType
  tag : Tag
  date : String
  deriving DecidableEq, Repr

/-- In-memory recurring entry as produced by `get_recurring_entries`. -/
structure RecurringEntry where
  id : ℤ
  source : String
  amount : ℚ
  kind : TransactionType
  tag : Tag
  last_inserted_month : String
  active : Bool
  deriving DecidableEq, Repr

/-- Row decoding performed by `get_transactions` in `db.rs`. -/
def TxRow.toTransaction (r : TxRow) : Transaction :=
  ⟨r.id, r.source, r.amount, TransactionType.from_str r.kind, r.tag, r.date⟩

/-- Row decoding performed by `get_recurring_entries` in `db.rs`. -/
def RecRow.toEntry (r : RecRow) : RecurringEntry :=
  ⟨r.id, r.source, r.amount, TransactionType.from_str r.kind, r.tag,
    r.last_inserted_month, r.active⟩

/-- Stable insertion step for the date-descending ordering of
`get_transactions` (`ORDER BY date DESC`); SQLite fixes no order between
equal dates, the embedding keeps table order there. -/
def insertByDate (t : TxRow) : List TxRow → List TxRow
  | [] => [t]
  | h :: rest => if t.date < h.date then h :: insertByDate t rest else t :: h :: rest

/-- Date-descending sort used by `get_transactions`. -/
def sortByDate (l : List TxRow) : List TxRow := l.foldr insertByDate []

/-- Stable insertion step for the id-descending ordering of
`get_recurring_entries` (`ORDER BY id DESC`). -/
def insertById (t : RecRow) : List RecRow → List RecRow
  | [] => [t]
  | h :: rest => if t.id < h.id then h :: insertById t rest else t :: h :: rest

/-- Embedding of `get_transactions` from `db.rs`. -/
def Db.get_transactions (db : Db) : List Transaction :=
  (sortByDate db.transactions).map TxRow.toTransaction

/-- Embedding of `get_recurring_entries` from `db.rs`. -/
def Db.get_recurring_entries (db : Db) : List RecurringEntry :=
  (db.recurring.foldr insertById []).map RecRow.toEntry

/-- Embedding of `add_transaction` from `db.rs`: inserts one row, the
primary key autoincrements. -/
def Db.add_transaction (db : Db) (source : String) (amount : ℚ)
    (kind : TransactionType) (tag : Tag) (date : String) : Db :=
  { db with
    transactions :=
      db.transactions ++ [⟨db.nextTxId, source, amount, kind.as_str, tag, date⟩],
    nextTxId := db.nextTxId + 1 }

/-- Embedding of `delete_transaction` from `db.rs`. -/
def Db.delete_transaction (db : Db) (id : ℤ) : Db :=
  { db with transactions := db.transactions.filter (fun r => r.id ≠ id) }

/-- Embedding of `update_transaction` from `db.rs`: full replacement of
every column except the id, on rows whose id matches. -/
def Db.update_transaction (db : Db) (id : ℤ) (source : String) (amount : ℚ)
    (kind : TransactionType) (tag : Tag) (date : String) : Db :=
  { db with
    transactions := db.transactions.map (fun r =>
      if r.id = id then ⟨r.id, source, amount, kind.as_str, tag, date⟩ else r) }

/-- Embedding of `total_earned` from `db.rs` (`SUM(amount) WHERE kind =
'credit'`, `COALESCE` to 0 on no rows). -/
def Db.total_earned (db : Db) : ℚ :=
  ((db.transactions.filter (fun r => r.kind = "credit")).map TxRow.amount).sum

/-- Embedding of `total_spent` from `db.rs`. -/
def Db.total_spent (db : Db) : ℚ :=
  ((db.transactions.filter (fun r => r.kind = "debit")).map TxRow.amount).sum

/-- Embedding of `spent_per_tag` from `db.rs` (`GROUP BY tag` over debit
rows): the resulting hash map, read extensionally — a tag is bound exactly
when some debit row carries it, to the sum of those rows' amounts. -/
def Db.spent_per_tag (db : Db) (tag : Tag) : Option ℚ :=
  let rows := db.transactions.filter (fun r => r.kind = "debit" ∧ r.tag = tag)
  if rows.isEmpty then none else some ((rows.map TxRow.amount).sum)

/-- Embedding of `add_recurring_entry` from `db.rs`: empty stamp, active. -/
def Db.add_recurring_entry (db : Db) (source : String) (amount : ℚ)
    (kind : TransactionType) (tag : Tag) : Db :=
  { db with
    recurring :=
      db.recurring ++ [⟨db.nextRecId, source, amount, kind.as_str, tag, "", true⟩],
    nextRecId := db.nextRecId + 1 }

/-! ## The recurring scheduler -/

/-- Selection predicate of the scheduler query in `db.rs`:
`WHERE active = 1 AND last_inserted_month != ?1`. -/
def staleActive (month : String) (e : RecRow) : Bool :=
  e.active && e.last_inserted_month != month

/-- Stamp update the scheduler performs after each insert:
`UPDATE recurring_entries SET last_inserted_month = ?1 WHERE id = ?2`. -/
def Db.stamp_recurring (db : Db) (month : String) (id : ℤ) : Db :=
  { db with
    recurring := db.recurring.map (fun e =>
      if e.id = id then { e with last_inserted_month := month } else e) }

/-- One loop iteration of `insert_recurring_for_month`: insert the entry as
a transaction dated today (kind and tag strings decoded exactly as the Rust
code does before re-encoding them), then stamp the entry. -/
def schedStep (month today : String) (db : Db) (e : RecRow) : Db :=
  (db.add_transaction e.source e.amount (TransactionType.from_str e.kind) e.tag today).stamp_recurring
    month e.id

/-- Embedding of `insert_recurring_for_month` from `db.rs`: the stale
active entries are collected first (the Rust code drains the query into a
`Vec`), then each is materialized and stamped in turn.  The date "today"
is an explicit parameter standing for `chrono::Local::now()`. -/
def Db.insert_recurring_for_month (db : Db) (month today : String) : Db :=
  (db.recurring.filter (staleActive month)).foldl (schedStep month today) db

/-- Transaction rows the scheduler appends for a selection of entries,
with the ids the AUTOINCREMENT key hands out. -/
def materialize (today : String) : ℤ → List RecRow → List TxRow
  | _, [] => []
  | nextId, e :: rest =>
      ⟨nextId, e.source, e.amount, (TransactionType.from_str e.kind).as_str, e.tag, today⟩ ::
        materialize today (nextId + 1) rest

/-! ## Form editor

Modelled from the spec: `form.rs` is not among the sources at hand.  The
spec (§4.2) fixes the field cycle Source, Amount, Kind, Tag, Date,
Recurring; free-text fields append/remove at the end; Kind and Recurring
toggle; Tag cycles over the vocabulary; reset yields a blank Debit form on
the first tag with a date placeholder for today and the cursor on Source. -/

inductive Field where
  | source
  | amount
  | kind
  | tag
  | date
  | recurring
  deriving DecidableEq, Repr

/-- Modelled from the spec: cyclic successor of the field cursor. -/
def Field.next : Field → Field
  | .source => .amount
  | .amount => .kind
  | .kind => .tag
  | .tag => .date
  | .date => .recurring
  | .recurring => .source

/-- State of the transaction form (`TransactionForm` in `form.rs`); the
field names follow the uses in `app.rs` and `handlers.rs`. -/
structure TransactionForm where
  source : String
  amount : String
  kind : TransactionType
  tag_index : Nat
  date : String
  recurring : Bool
  active : Field
  deriving DecidableEq, Repr

/-- Modelled from the spec: form reset to defaults — blank texts, Debit,
first tag, today's date placeholder, not recurring, cursor on Source. -/
def TransactionForm.reset (today : String) : TransactionForm :=
  ⟨"", "", .debit, 0, today, false, .source⟩

/-- Modelled from the spec: Kind is a binary toggle. -/
def TransactionForm.toggle_kind (f : TransactionForm) : TransactionForm :=
  { f with kind := match f.kind with | .credit => .debit | .debit => .credit }

/-- Modelled from the spec: Recurring is a boolean toggle. -/
def TransactionForm.toggle_recurring (f : TransactionForm) : TransactionForm :=
  { f with recurring := !f.recurring }

/-- Modelled from the spec: cyclic successor over the tag vocabulary. -/
def TransactionForm.next_tag (f : TransactionForm) (len : Nat) : TransactionForm :=
  { f with tag_index := if len = 0 then f.tag_index else (f.tag_index + 1) % len }

/-- Modelled from the spec: cyclic predecessor over the tag vocabulary. -/
def TransactionForm.prev_tag (f : TransactionForm) (len : Nat) : TransactionForm :=
  { f with tag_index := if len = 0 then f.tag_index else (f.tag_index + len - 1) % len }

/-- Modelled from the spec: append a character to the active free-text
field (Source, Amount or Date); a no-op on the selector fields. -/
def TransactionForm.push_char (f : TransactionForm) (c : Char) : TransactionForm :=
  match f.active with
  | .source => { f with source := f.source.push c }
  | .amount => { f with amount := f.amount.push c }
  | .date => { f with date := f.date.push c }
  | _ => f

/-- Modelled from the spec: remove the last character of the active
free-text field. -/
def TransactionForm.pop_char (f : TransactionForm) : TransactionForm :=
  match f.active with
  | .source => { f with source := f.source.dropRight 1 }
  | .amount => { f with amount := f.amount.dropRight 1 }
  | .date => { f with date := f.date.dropRight 1 }
  | _ => f

/-- Embedding of `Iterator::position`: index of the first element
satisfying the predicate. -/
def position (p : Tag → Bool) : List Tag → Option Nat
  | [] => none
  | t :: rest => if p t then some 0 else (position p rest).map (· + 1)

/-! ## Application state (`app.rs`) -/

inductive Mode where
  | normal
  | adding
  | stats
  | popup
  deriving DecidableEq, Repr

/-- Actions a popup can trigger (`PopupAction` in `app.rs`). -/
inductive PopupAction where
  | deleteTransaction (id : ℤ)
  | quit
  deriving DecidableEq, Repr

/-- Popup kinds (`PopupKind` in `app.rs`). -/
inductive PopupKind where
  | confirm (title message : String) (action : PopupAction)
  | info (title message : String)
  deriving DecidableEq, Repr

/-- The application context (`App` in `app.rs`). -/
structure App where
  mode : Mode
  form : TransactionForm
  editing : Option ℤ
  tags : List Tag
  transactions : List Transaction
  recurring_entries : List RecurringEntry
  selected : Nat
  currency : String
  popup : Option PopupKind
  deriving DecidableEq, Repr

/-- Embedding of `App::new` from `app.rs`: the tag vocabulary and currency
come from the config collaborator, snapshots are loaded from the store.
The date placeholder of the fresh form stands for "today". -/
def App.new (tags : List Tag) (currency today : String) (db : Db) : App :=
  { mode := .normal
    form := TransactionForm.reset today
    editing := none
    tags := tags
    transactions := db.get_transactions
    recurring_entries := db.get_recurring_entries
    selected := 0
    currency := currency
    popup := none }

/-- Embedding of `App::refresh` from `app.rs`: reload both snapshots and
clamp the selection by one when the list shrank under it. -/
def App.refresh (app : App) (db : Db) : App :=
  let txs := db.get_transactions
  { app with
    transactions := txs
    recurring_entries := db.get_recurring_entries
    selected :=
      if app.selected ≥ txs.length ∧ app.selected > 0 then app.selected - 1
      else app.selected }

/-- Embedding of `App::save_transaction` from `app.rs`: the amount text is
parsed with fallback 0.0, the tag index resolved with fallback "other";
an edit target gets a full-record update, otherwise a create (plus a
recurring template when flagged); the snapshot is refreshed at the end. -/
def App.save_transaction (app : App) (db : Db) : App × Db :=
  let amount := (parseAmount app.form.amount).getD 0
  let tag := (app.tags.get? app.form.tag_index).getD "other"
  match app.editing with
  | some id =>
      let db' := db.update_transaction id app.form.source amount app.form.kind tag app.form.date
      (App.refresh { app with editing := none } db', db')
  | none =>
      let db' := db.add_transaction app.form.source amount app.form.kind tag app.form.date
      let db'' :=
        if app.form.recurring then
          db'.add_recurring_entry app.form.source amount app.form.kind tag
        else db'
      (App.refresh app db'', db'')

/-- Embedding of `App::begin_edit_selected` from `app.rs`: a no-op on an
empty list; otherwise every field of the selected transaction is copied
into the form (the amount rendered with two fixed decimals, the tag
resolved to its vocabulary index with fallback 0) and the mode switches to
Adding with that id as edit target.  The Rust code indexes the list
directly and would panic on an out-of-range selection; that unreachable
path is embedded as a no-op. -/
def App.begin_edit_selected (app : App) : App :=
  if app.transactions.isEmpty then app
  else
    match app.transactions.get? app.selected with
    | none => app
    | some tx =>
        { app with
          form :=
            { app.form with
              source := tx.source
              amount := formatFixed2 tx.amount
              kind := tx.kind
              tag_index := (position (fun t => t = tx.tag) app.tags).getD 0
              date := tx.date
              active := .source }
          mode := .adding
          editing := some tx.id }

/-- Embedding of `App::open_confirm_popup` from `app.rs`. -/
def App.open_confirm_popup (app : App) (title message : String)
    (action : PopupAction) : App :=
  { app with popup := some (.confirm title message action), mode := .popup }

/-- Embedding of `App::open_info_popup` from `app.rs`. -/
def App.open_info_popup (app : App) (title message : String) : App :=
  { app with popup := some (.info title message), mode := .popup }

/-- Embedding of `App::close_popup` from `app.rs`. -/
def App.close_popup (app : App) : App :=
  { app with popup := none, mode := .normal }

/-- Embedding of `App::selected_transaction` from `app.rs`. -/
def App.selected_transaction (app : App) : Option Transaction :=
  app.transactions.get? app.selected

/-! ## Key handlers (`handlers.rs`) -/

/-- Abstract key events: the crossterm key codes the handlers distinguish,
with a single constructor standing for every other code (all of which fall
into the catch-all arms). -/
inductive Key where
  | char (c : Char)
  | esc
  | enter
  | tab
  | backspace
  | up
  | down
  | left
  | right
  | other
  deriving DecidableEq, Repr

/-- Modelled from the spec: display text of an amount interpolated into
the delete-confirmation message; the message is opaque to the state
machine (nothing ever branches on it), so the exact digits are
irrelevant to every theorem below. -/
def displayAmount (q : ℚ) : String := formatFixed2 q

/-- Embedding of `handle_popup` from `handlers.rs`.  The result is the new
application state, the new store and the "exit requested" flag.  Note the
Quit confirmation returns before `close_popup` runs. -/
def handle_popup (app : App) (key : Key) (db : Db) : App × Db × Bool :=
  match key with
  | .char 'y' =>
      match app.popup with
      | some (.confirm _ _ action) =>
          match action with
          | .deleteTransaction id =>
              let db' := db.delete_transaction id
              ((App.refresh app db').close_popup, db', false)
          | .quit => (app, db, true)
      | _ => (app.close_popup, db, false)
  | .char 'n' => (app.close_popup, db, false)
  | .esc => (app.close_popup, db, false)
  | _ => (app, db, false)

/-- Embedding of `handle_normal` from `handlers.rs`. -/
def handle_normal (app : App) (key : Key) (db : Db) (today : String) :
    App × Db × Bool :=
  match key with
  | .char 'q' => (app, db, true)
  | .char 'a' =>
      ({ app with form := TransactionForm.reset today, editing := none, mode := .adding },
        db, false)
  | .char 's' => ({ app with mode := .stats }, db, false)
  | .up =>
      (if app.selected > 0 then { app with selected := app.selected - 1 } else app,
        db, false)
  | .down =>
      (if app.selected + 1 < app.transactions.length then
          { app with selected := app.selected + 1 }
        else app, db, false)
  | .char 'd' =>
      match app.selected_transaction with
      | some tx =>
          (app.open_confirm_popup "Confirm Delete"
            ("Delete this transaction?\n\n" ++ tx.source ++ "  (" ++ app.currency ++
              displayAmount tx.amount ++ ")")
            (.deleteTransaction tx.id), db, false)
      | none => (app, db, false)
  | .char 'e' => (app.begin_edit_selected, db, false)
  | _ => (app, db, false)

/-- Embedding of `handle_form` from `handlers.rs`. -/
def handle_form (app : App) (key : Key) (db : Db) (today : String) :
    App × Db × Bool :=
  match key with
  | .esc =>
      ({ app with mode := .normal, editing := none, form := TransactionForm.reset today },
        db, false)
  | .tab => ({ app with form := { app.form with active := app.form.active.next } }, db, false)
  | .right =>
      (match app.form.active with
        | .kind => { app with form := app.form.toggle_kind }
        | .tag => { app with form := app.form.next_tag app.tags.length }
        | .recurring => { app with form := app.form.toggle_recurring }
        | _ => app, db, false)
  | .left =>
      (match app.form.active with
        | .kind => { app with form := app.form.toggle_kind }
        | .tag => { app with form := app.form.prev_tag app.tags.length }
        | .recurring => { app with form := app.form.toggle_recurring }
        | _ => app, db, false)
  | .backspace => ({ app with form := app.form.pop_char }, db, false)
  | .char c => ({ app with form := app.form.push_char c }, db, false)
  | .enter =>
      let (app', db') := app.save_transaction db
      ({ app' with form := TransactionForm.reset today, mode := .normal }, db', false)
  | _ => (app, db, false)

/-- Modelled from the spec: `handle_stats` lives in `stats.rs`, not among
the sources at hand; the spec (§4.1) gives Stats a single transition, back
to Normal, and calls the view read-only. -/
def handle_stats (app : App) (key : Key) : App × Bool :=
  match key with
  | .esc => ({ app with mode := .normal }, false)
  | _ => (app, false)

/-- Embedding of `handle_key` from `handlers.rs`: dispatch on the mode. -/
def handle_key (app : App) (key : Key) (db : Db) (today : String) :
    App × Db × Bool :=
  match app.mode with
  | .normal => handle_normal app key db today
  | .adding => handle_form app key db today
  | .stats =>
      let (app', quit) := handle_stats app key
      (app', db, quit)
  | .popup => handle_popup app key db

/-! ## Scheduler lemmas -/

/-- Stamping of every recurring row whose id lies in a set of processed
ids; the fold of the scheduler produces exactly this on the table. -/
def stampIds (month : String) (ids : List ℤ) (e : RecRow) : RecRow :=
  if e.id ∈ ids then { e with last_inserted_month := month } else e

theorem staleActive_iff (month : String) (e : RecRow) :
    staleActive month e = true ↔ e.active = true ∧ e.last_inserted_month ≠ month := by
  simp [staleActive, Bool.and_eq_true, bne_iff_ne]

theorem schedStep_transactions (month today : String) (db : Db) (e : RecRow) :
    (schedStep month today db e).transactions =
      db.transactions ++
        [⟨db.nextTxId, e.source, e.amount, (TransactionType.from_str e.kind).as_str,
          e.tag, today⟩] := by
  simp [schedStep, Db.add_transaction, Db.stamp_recurring]

theorem schedStep_nextTxId (month today : String) (db : Db) (e : RecRow) :
    (schedStep month today db e).nextTxId = db.nextTxId + 1 := by
  simp [schedStep, Db.add_transaction, Db.stamp_recurring]

theorem schedStep_recurring (month today : String) (db : Db) (e : RecRow) :
    (schedStep month today db e).recurring =
      db.recurring.map (stampIds month [e.id]) := by
  simp only [schedStep, Db.add_transaction, Db.stamp_recurring]
  congr 1
  funext x
  by_cases h : x.id = e.id <;> simp [stampIds, h]

theorem stampIds_cons (month : String) (i : ℤ) (ids : List ℤ) (e : RecRow) :
    stampIds month ids (stampIds month [i] e) = stampIds month (i :: ids) e := by
  by_cases hi : e.id = i
  · by_cases hm : e.id ∈ ids <;>
      simp [stampIds, hi, hm, List.mem_cons]
  · by_cases hm : e.id ∈ ids <;>
      simp [stampIds, hi, hm, List.mem_cons]

theorem sched_foldl_spec (month today : String) (sel : List RecRow) :
    ∀ db : Db,
      ((sel.foldl (schedStep month today) db).transactions =
          db.transactions ++ materialize today db.nextTxId sel) ∧
      (sel.foldl (schedStep month today) db).recurring =
        db.recurring.map (stampIds month (sel.map RecRow.id)) := by
  induction sel with
  | nil =>
      intro db
      refine ⟨by simp [materialize], ?_⟩
      simp only [List.map_nil, List.foldl_nil]
      have h0 : stampIds month [] = id := funext fun e => by simp [stampIds]
      rw [h0, List.map_id]
  | cons e rest ih =>
      intro db
      obtain ⟨ht, hr⟩ := ih (schedStep month today db e)
      constructor
      · rw [List.foldl_cons, ht, schedStep_transactions, schedStep_nextTxId,
          List.append_assoc]
        rfl
      · rw [List.foldl_cons, hr, schedStep_recurring, List.map_map]
        have : (stampIds month (rest.map RecRow.id)) ∘ (stampIds month [e.id]) =
            stampIds month ((e :: rest).map RecRow.id) := by
          funext x
          simp only [Function.comp_apply, List.map_cons]
          exact stampIds_cons month e.id (rest.map RecRow.id) x

        rw [this]

theorem materialize_length (today : String) :
    ∀ (sel : List RecRow) (nextId : ℤ),
      (materialize today nextId sel).length = sel.length := by
  intro sel
  induction sel with
  | nil => intro nextId; rfl
  | cons e rest ih => intro nextId; simp [materialize, ih]

theorem materialize_mem (today : String) :
    ∀ (sel : List RecRow) (nextId : ℤ) (row : TxRow),
      row ∈ materialize today nextId sel →
      ∃ e ∈ sel, row.source = e.source ∧ row.amount = e.amount ∧
        row.tag = e.tag ∧ row.date = today := by
  intro sel
  induction sel with
  | nil => intro nextId row h; simp [materialize] at h
  | cons e rest ih =>
      intro nextId row h
      rw [materialize, List.mem_cons] at h
      rcases h with h | h
      · exact ⟨e, List.mem_cons_self e rest, by simp [h]⟩
      · obtain ⟨e', he', hfields⟩ := ih (nextId + 1) row h
        exact ⟨e', List.mem_cons_of_mem e he', hfields⟩

/-- C1: the Recurring Scheduler materializes exactly one transaction per
active entry with a stale month stamp (the appended rows are in bijection
with the selected entries), and a second run with the same month stamp
appends no further transaction. -/
theorem scheduler_exactly_once_per_month (db : Db) (month today today' : String) :
    (db.insert_recurring_for_month month today).transactions =
      db.transactions ++
        materialize today db.nextTxId (db.recurring.filter (staleActive month)) ∧
    (materialize today db.nextTxId (db.recurring.filter (staleActive month))).length =
      (db.recurring.filter (staleActive month)).length ∧
    ((db.insert_recurring_for_month month today).insert_recurring_for_month
        month today').transactions =
      (db.insert_recurring_for_month month today).transactions := by
  obtain ⟨ht, hr⟩ := sched_foldl_spec month today (db.recurring.filter (staleActive month)) db
  refine ⟨ht, materialize_length today _ _, ?_⟩
  have hsel : ((db.insert_recurring_for_month month today).recurring.filter
      (staleActive month)) = [] := by
    rw [Db.insert_recurring_for_month, hr, List.filter_eq_nil_iff]
    intro e he
    rw [List.mem_map] at he
    obtain ⟨x, hx, hxe⟩ := he
    by_cases hmem : x.id ∈ (db.recurring.filter (staleActive month)).map RecRow.id
    · subst hxe
      simp [stampIds, hmem, staleActive]
    · subst hxe
      rw [stampIds, if_neg hmem]
      intro hstale
      exact hmem (List.mem_map_of_mem RecRow.id (List.mem_filter.mpr ⟨hx, hstale⟩))
  rw [Db.insert_recurring_for_month, hsel]
  rfl

/-- C2: the Recurring Scheduler never creates a transaction from an
inactive recurring entry — every transaction row present after a run was
either already present or stems from an entry that is active with a stale
month stamp. -/
theorem scheduler_skips_inactive (db : Db) (month today : String) (row : TxRow)
    (h : row ∈ (db.insert_recurring_for_month month today).transactions) :
    row ∈ db.transactions ∨
      ∃ e, e ∈ db.recurring ∧ e.active = true ∧ e.last_inserted_month ≠ month ∧
        row.source = e.source ∧ row.amount = e.amount ∧ row.tag = e.tag ∧
        row.date = today := by
  obtain ⟨ht, -⟩ := sched_foldl_spec month today (db.recurring.filter (staleActive month)) db
  rw [Db.insert_recurring_for_month] at h
  rw [ht, List.mem_append] at h
  rcases h with h | h
  · exact Or.inl h
  · obtain ⟨e, he, hfields⟩ := materialize_mem today _ _ row h
    rw [List.mem_filter] at he
    obtain ⟨hmem, hstale⟩ := he
    obtain ⟨hact, hmonth⟩ := (staleActive_iff month e).mp hstale
    exact Or.inr ⟨e, hmem, hact, hmonth, hfields⟩

/-! ## Sort and decoding lemmas -/

theorem insertByDate_perm (t : TxRow) (l : List TxRow) :
    List.Perm (insertByDate t l) (t :: l) := by
  induction l with
  | nil => rfl
  | cons h rest ih =>
      rw [insertByDate]
      by_cases hd : t.date < h.date
      · rw [if_pos hd]
        exact (ih.cons h).trans (List.Perm.swap t h rest)
      · rw [if_neg hd]

theorem sortByDate_perm (l : List TxRow) : List.Perm (sortByDate l) l := by
  induction l with
  | nil => rfl
  | cons h rest ih =>
      have : sortByDate (h :: rest) = insertByDate h (sortByDate rest) := rfl
      rw [this]
      exact (insertByDate_perm h (sortByDate rest)).trans (ih.cons h)

theorem from_str_eq_credit (s : String) :
    TransactionType.from_str s = .credit ↔ s = "credit" := by
  rw [TransactionType.from_str]
  by_cases h : s = "credit" <;> simp [h]

theorem from_str_eq_debit_of_wf (s : String)
    (h : s = "credit" ∨ s = "debit") :
    TransactionType.from_str s = .debit ↔ s = "debit" := by
  rcases h with h | h <;> subst h <;> simp [TransactionType.from_str]

/-! ## Aggregation lemmas -/

/-- Embedding of the balance computation in `main.rs`: earned minus spent. -/
def balance (db : Db) : ℚ := db.total_earned - db.total_spent

theorem get_transactions_filter (db : Db) (pT : Transaction → Bool) (pR : TxRow → Bool)
    (h : ∀ r ∈ db.transactions, pT r.toTransaction = pR r) :
    List.Perm (db.get_transactions.filter pT)
      ((db.transactions.filter pR).map TxRow.toTransaction) := by
  rw [Db.get_transactions, List.filter_map]
  have hm : ∀ r ∈ sortByDate db.transactions, (pT ∘ TxRow.toTransaction) r = pR r := by
    intro r hr
    exact h r ((sortByDate_perm db.transactions).mem_iff.mp hr)
  rw [List.filter_congr hm]
  exact ((sortByDate_perm db.transactions).filter pR).map TxRow.toTransaction

theorem get_transactions_filter_sum (db : Db) (pT : Transaction → Bool)
    (pR : TxRow → Bool) (h : ∀ r ∈ db.transactions, pT r.toTransaction = pR r) :
    ((db.get_transactions.filter pT).map Transaction.amount).sum =
      ((db.transactions.filter pR).map TxRow.amount).sum := by
  have hperm := (get_transactions_filter db pT pR h).map Transaction.amount
  rw [List.map_map] at hperm
  exact hperm.sum_eq

theorem get_transactions_filter_isEmpty (db : Db) (pT : Transaction → Bool)
    (pR : TxRow → Bool) (h : ∀ r ∈ db.transactions, pT r.toTransaction = pR r) :
    (db.get_transactions.filter pT).isEmpty = (db.transactions.filter pR).isEmpty := by
  have hlen := (get_transactions_filter db pT pR h).length_eq
  rw [List.length_map] at hlen
  cases e1 : db.get_transactions.filter pT <;> cases e2 : db.transactions.filter pR <;>
    rw [e1, e2] at hlen <;> simp_all

/-- Store with the transactions of the aggregation example of the spec:
credit 100, debit 40 on food, debit 10 on food, debit 5 on travel. -/
def exampleDb : Db :=
  ⟨[⟨1, "salary", 100, "credit", "salary", "2025-01-01"⟩,
    ⟨2, "grocer", 40, "debit", "food", "2025-01-02"⟩,
    ⟨3, "cafe", 10, "debit", "food", "2025-01-03"⟩,
    ⟨4, "bus", 5, "debit", "travel", "2025-01-04"⟩], 5, [], 1⟩

/-- C3: total earned sums the Credit amounts, total spent the Debit
amounts, balance is their difference, the per-tag breakdown binds a tag
exactly when it has a debit and then to the sum of its debit amounts; on
the spec's example the results are 100, 55, 45, food 50, travel 5. -/
theorem stats_aggregation (db : Db)
    (hwf : ∀ r ∈ db.transactions, r.kind = "credit" ∨ r.kind = "debit") :
    db.total_earned =
      ((db.get_transactions.filter (fun t => t.kind = TransactionType.credit)).map
        Transaction.amount).sum ∧
    db.total_spent =
      ((db.get_transactions.filter (fun t => t.kind = TransactionType.debit)).map
        Transaction.amount).sum ∧
    balance db = db.total_earned - db.total_spent ∧
    (∀ tag : Tag, db.spent_per_tag tag =
      if (db.get_transactions.filter
            (fun t => t.kind = TransactionType.debit ∧ t.tag = tag)).isEmpty then none
      else some (((db.get_transactions.filter
            (fun t => t.kind = TransactionType.debit ∧ t.tag = tag)).map
          Transaction.amount).sum)) ∧
    exampleDb.total_earned = 100 ∧ exampleDb.total_spent = 55 ∧ balance exampleDb = 45 ∧
    exampleDb.spent_per_tag "food" = some 50 ∧
    exampleDb.spent_per_tag "travel" = some 5 := by
  refine ⟨?_, ?_, rfl, ?_,
    by simp [exampleDb, Db.total_earned, List.filter_cons, decide_eq_true_eq] <;> norm_num,
    by simp [exampleDb, Db.total_spent, List.filter_cons, decide_eq_true_eq] <;> norm_num,
    by simp [balance, exampleDb, Db.total_earned, Db.total_spent, List.filter_cons,
      decide_eq_true_eq] <;> norm_num,
    by simp [exampleDb, Db.spent_per_tag, List.filter_cons, decide_eq_true_eq] <;> norm_num,
    by simp [exampleDb, Db.spent_per_tag, List.filter_cons, decide_eq_true_eq] <;> norm_num⟩
  · rw [Db.total_earned]
    refine (get_transactions_filter_sum db _ _ ?_).symm
    intro r _
    exact decide_eq_decide.mpr (from_str_eq_credit r.kind)
  · rw [Db.total_spent]
    refine (get_transactions_filter_sum db _ _ ?_).symm
    intro r hr
    exact decide_eq_decide.mpr (from_str_eq_debit_of_wf r.kind (hwf r hr))
  · intro tag
    have hpe : ∀ r ∈ db.transactions,
        (fun t : Transaction => decide (t.kind = TransactionType.debit ∧ t.tag = tag))
            r.toTransaction =
          (fun r : TxRow => decide (r.kind = "debit" ∧ r.tag = tag)) r := by
      intro r hr
      exact decide_eq_decide.mpr
        (and_congr_left fun _ => from_str_eq_debit_of_wf r.kind (hwf r hr))
    have he := get_transactions_filter_isEmpty db
      (fun t => decide (t.kind = TransactionType.debit ∧ t.tag = tag))
      (fun r => decide (r.kind = "debit" ∧ r.tag = tag)) hpe
    have hs := get_transactions_filter_sum db
      (fun t => decide (t.kind = TransactionType.debit ∧ t.tag = tag))
      (fun r => decide (r.kind = "debit" ∧ r.tag = tag)) hpe
    rw [Db.spent_per_tag, he, hs]

/-- Witness for C3 at the spec's example store. -/
theorem stats_aggregation_witness :
    (∀ r ∈ exampleDb.transactions, r.kind = "credit" ∨ r.kind = "debit") ∧
    (exampleDb.total_earned =
      ((exampleDb.get_transactions.filter (fun t => t.kind = TransactionType.credit)).map
        Transaction.amount).sum ∧
    exampleDb.total_spent =
      ((exampleDb.get_transactions.filter (fun t => t.kind = TransactionType.debit)).map
        Transaction.amount).sum ∧
    balance exampleDb = exampleDb.total_earned - exampleDb.total_spent ∧
    (∀ tag : Tag, exampleDb.spent_per_tag tag =
      if (exampleDb.get_transactions.filter
            (fun t => t.kind = TransactionType.debit ∧ t.tag = tag)).isEmpty then none
      else some (((exampleDb.get_transactions.filter
            (fun t => t.kind = TransactionType.debit ∧ t.tag = tag)).map
          Transaction.amount).sum)) ∧
    exampleDb.total_earned = 100 ∧ exampleDb.total_spent = 55 ∧ balance exampleDb = 45 ∧
    exampleDb.spent_per_tag "food" = some 50 ∧
    exampleDb.spent_per_tag "travel" = some 5) :=
  ⟨by decide, stats_aggregation exampleDb (by decide)⟩

/-- Concrete transaction row used by the scheduler witness. -/
def sampleTxRow : TxRow := ⟨1, "x", 5, "debit", "food", "2025-01-01"⟩

/-- Concrete store with one transaction and one inactive recurring entry. -/
def sampleDbInactive : Db :=
  ⟨[sampleTxRow], 2, [⟨1, "rent", 10, "debit", "bills", "", false⟩], 2⟩

/-! ## Popup modality -/

/-- C4: while the application is in Popup mode, every key other than
confirm ('y') and cancel ('n' or Esc) leaves the whole application state
and the store unchanged and does not request exit. -/
theorem popup_other_keys_noop (app : App) (key : Key) (db : Db) (today : String)
    (hmode : app.mode = .popup)
    (hy : key ≠ .char 'y') (hn : key ≠ .char 'n') (he : key ≠ .esc) :
    handle_key app key db today = (app, db, false) := by
  cases key with
  | char c =>
      have hcy : c ≠ 'y' := fun h => hy (by rw [h])
      have hcn : c ≠ 'n' := fun h => hn (by rw [h])
      simp [handle_key, hmode, handle_popup, hcy, hcn]
  | esc => exact absurd rfl he
  | enter => simp [handle_key, hmode, handle_popup]
  | tab => simp [handle_key, hmode, handle_popup]
  | backspace => simp [handle_key, hmode, handle_popup]
  | up => simp [handle_key, hmode, handle_popup]
  | down => simp [handle_key, hmode, handle_popup]
  | left => simp [handle_key, hmode, handle_popup]
  | right => simp [handle_key, hmode, handle_popup]
  | other => simp [handle_key, hmode, handle_popup]

/-- Concrete empty store used by the handler witnesses. -/
def sampleDbEmpty : Db := ⟨[], 1, [], 1⟩

/-- Concrete application state in Popup mode with a pending Quit
confirmation. -/
def sampleAppQuit : App :=
  { mode := .popup, form := TransactionForm.reset "2025-01-01", editing := none,
    tags := ["food"], transactions := [], recurring_entries := [], selected := 0,
    currency := "$", popup := some (.confirm "Confirm Quit" "quit?" .quit) }

/-- Witness for C4: pressing Enter on a pending popup changes nothing. -/
theorem popup_other_keys_noop_witness :
    sampleAppQuit.mode = Mode.popup ∧ Key.enter ≠ Key.char 'y' ∧
    Key.enter ≠ Key.char 'n' ∧ Key.enter ≠ Key.esc ∧
    handle_key sampleAppQuit .enter sampleDbEmpty "2025-02-03" =
      (sampleAppQuit, sampleDbEmpty, false) :=
  ⟨rfl, by decide, by decide, by decide,
    popup_other_keys_noop sampleAppQuit .enter sampleDbEmpty "2025-02-03" rfl
      (by decide) (by decide) (by decide)⟩

/-- Counterexample to C7 as stated: confirming a Quit popup requests exit
but does not clear the popup nor return the mode to Normal — the handler
returns before `close_popup` runs. -/
theorem popup_confirm_quit_keeps_popup :
    (handle_key sampleAppQuit (.char 'y') sampleDbEmpty "2025-02-03").1.mode = Mode.popup ∧
    (handle_key sampleAppQuit (.char 'y') sampleDbEmpty "2025-02-03").1.popup ≠ none ∧
    (handle_key sampleAppQuit (.char 'y') sampleDbEmpty "2025-02-03").2.2 = true := by
  refine ⟨rfl, ?_, rfl⟩
  intro h
  simp [handle_key, sampleAppQuit, handle_popup] at h

/-- C7 (amended): on a pending confirmation popup, confirm ('y') with a
DeleteTransaction action deletes that id, clears the popup and returns the
mode to Normal; confirm with a Quit action requests exit and leaves the
state untouched (the popup is not cleared, moot since the process exits);
cancel ('n' or Esc) clears the popup and returns to Normal with the store
unchanged. -/
theorem popup_confirm_executes_cancel_clears (app : App) (db : Db)
    (today t m : String) (hmode : app.mode = .popup) :
    (∀ id, app.popup = some (.confirm t m (.deleteTransaction id)) →
      handle_key app (.char 'y') db today =
        ((App.refresh app (db.delete_transaction id)).close_popup,
          db.delete_transaction id, false) ∧
      (handle_key app (.char 'y') db today).1.popup = none ∧
      (handle_key app (.char 'y') db today).1.mode = .normal) ∧
    (app.popup = some (.confirm t m .quit) →
      handle_key app (.char 'y') db today = (app, db, true)) ∧
    handle_key app (.char 'n') db today = (app.close_popup, db, false) ∧
    handle_key app .esc db today = (app.close_popup, db, false) := by
  refine ⟨?_, ?_, ?_, ?_⟩
  · intro id hp
    refine ⟨?_, ?_, ?_⟩ <;> simp [handle_key, hmode, handle_popup, hp, App.close_popup]
  · intro hp
    simp [handle_key, hmode, handle_popup, hp]
  · simp [handle_key, hmode, handle_popup]
  · simp [handle_key, hmode, handle_popup]

/-- Concrete application state in Popup mode with a pending Delete
confirmation for id 1 over a one-row store. -/
def sampleAppDelete : App :=
  { mode := .popup, form := TransactionForm.reset "2025-01-01", editing := none,
    tags := ["food"], transactions := (⟨[sampleTxRow], 2, [], 1⟩ : Db).get_transactions,
    recurring_entries := [], selected := 0,
    currency := "$", popup := some (.confirm "Confirm Delete" "del?" (.deleteTransaction 1)) }

/-- Witness for the amended C7 at a concrete Delete confirmation. -/
theorem popup_confirm_executes_cancel_clears_witness :
    sampleAppDelete.mode = Mode.popup ∧
    ((∀ id, sampleAppDelete.popup = some (.confirm "Confirm Delete" "del?"
          (.deleteTransaction id)) →
      handle_key sampleAppDelete (.char 'y') (⟨[sampleTxRow], 2, [], 1⟩ : Db) "2025-02-03" =
        ((App.refresh sampleAppDelete
            ((⟨[sampleTxRow], 2, [], 1⟩ : Db).delete_transaction id)).close_popup,
          (⟨[sampleTxRow], 2, [], 1⟩ : Db).delete_transaction id, false) ∧
      (handle_key sampleAppDelete (.char 'y') (⟨[sampleTxRow], 2, [], 1⟩ : Db)
          "2025-02-03").1.popup = none ∧
      (handle_key sampleAppDelete (.char 'y') (⟨[sampleTxRow], 2, [], 1⟩ : Db)
          "2025-02-03").1.mode = .normal) ∧
    (sampleAppDelete.popup = some (.confirm "Confirm Delete" "del?" .quit) →
      handle_key sampleAppDelete (.char 'y') (⟨[sampleTxRow], 2, [], 1⟩ : Db) "2025-02-03" =
        (sampleAppDelete, (⟨[sampleTxRow], 2, [], 1⟩ : Db), true)) ∧
    handle_key sampleAppDelete (.char 'n') (⟨[sampleTxRow], 2, [], 1⟩ : Db) "2025-02-03" =
      (sampleAppDelete.close_popup, (⟨[sampleTxRow], 2, [], 1⟩ : Db), false) ∧
    handle_key sampleAppDelete .esc (⟨[sampleTxRow], 2, [], 1⟩ : Db) "2025-02-03" =
      (sampleAppDelete.close_popup, (⟨[sampleTxRow], 2, [], 1⟩ : Db), false)) :=
  ⟨rfl, popup_confirm_executes_cancel_clears sampleAppDelete _ "2025-02-03"
    "Confirm Delete" "del?" rfl⟩

/-- Concrete application state in Popup mode with a pending Info popup. -/
def sampleAppInfo : App :=
  { mode := .popup, form := TransactionForm.reset "2025-01-01", editing := none,
    tags := ["food"], transactions := [], recurring_entries := [], selected := 0,
    currency := "$", popup := some (.info "Note" "hello") }

/-- C10: on a pending Info popup, confirm as well as cancel merely closes
the popup and returns the mode to Normal; the store is untouched, no
action runs and no exit is requested. -/
theorem popup_info_confirm_cancel_close (app : App) (db : Db) (today t m : String)
    (hp : app.popup = some (.info t m)) (hmode : app.mode = .popup) :
    handle_key app (.char 'y') db today = (app.close_popup, db, false) ∧
    handle_key app (.char 'n') db today = (app.close_popup, db, false) ∧
    handle_key app .esc db today = (app.close_popup, db, false) := by
  refine ⟨?_, ?_, ?_⟩ <;> simp [handle_key, hmode, handle_popup, hp]

/-- Witness for C10 at a concrete Info popup. -/
theorem popup_info_confirm_cancel_close_witness :
    sampleAppInfo.popup = some (.info "Note" "hello") ∧
    sampleAppInfo.mode = Mode.popup ∧
    (handle_key sampleAppInfo (.char 'y') sampleDbEmpty "2025-02-03" =
        (sampleAppInfo.close_popup, sampleDbEmpty, false) ∧
      handle_key sampleAppInfo (.char 'n') sampleDbEmpty "2025-02-03" =
        (sampleAppInfo.close_popup, sampleDbEmpty, false) ∧
      handle_key sampleAppInfo .esc sampleDbEmpty "2025-02-03" =
        (sampleAppInfo.close_popup, sampleDbEmpty, false)) :=
  ⟨rfl, rfl,
    popup_info_confirm_cancel_close sampleAppInfo sampleDbEmpty "2025-02-03"
      "Note" "hello" rfl rfl⟩



/-- Witness for C2 at a concrete store holding one transaction and one
inactive recurring entry: the sole row after a run was already present. -/
theorem scheduler_skips_inactive_witness :
    sampleTxRow ∈
      (sampleDbInactive.insert_recurring_for_month "2025-02" "2025-02-03").transactions ∧
    (sampleTxRow ∈ sampleDbInactive.transactions ∨
      ∃ e, e ∈ sampleDbInactive.recurring ∧
        e.active = true ∧ e.last_inserted_month ≠ "2025-02" ∧
        sampleTxRow.source = e.source ∧ sampleTxRow.amount = e.amount ∧
        sampleTxRow.tag = e.tag ∧ sampleTxRow.date = "2025-02-03") :=
  ⟨by decide,
    scheduler_skips_inactive sampleDbInactive "2025-02" "2025-02-03" sampleTxRow
      (by decide)⟩

/-! ## Submit fallbacks (C5) -/

/-- C5: the two submit fallbacks hold each under its own condition, on
the create path and on the edit path alike: amount text on which the
numeric parse fails (and which is not one of the non-finite keyword
forms, which Rust parses to non-finite floats outside the rational
model) persists as 0 while the tag is whatever the index resolves to;
a tag index beyond the vocabulary persists the reserved "other" tag
while the amount is whatever the parse resolves to; and no save ever
fails or surfaces an error — popup and mode are untouched
unconditionally. -/
theorem submit_fallback_defaults (app : App) (db : Db) :
    (app.editing = none → parseAmount app.form.amount = none →
      nonFiniteAmountText app.form.amount = false →
      (app.save_transaction db).2.transactions =
        db.transactions ++
          [⟨db.nextTxId, app.form.source, 0, app.form.kind.as_str,
            (app.tags.get? app.form.tag_index).getD "other", app.form.date⟩]) ∧
    (app.editing = none → app.tags.length ≤ app.form.tag_index →
      (app.save_transaction db).2.transactions =
        db.transactions ++
          [⟨db.nextTxId, app.form.source, (parseAmount app.form.amount).getD 0,
            app.form.kind.as_str, "other", app.form.date⟩]) ∧
    (∀ id, app.editing = some id → parseAmount app.form.amount = none →
      nonFiniteAmountText app.form.amount = false →
      (app.save_transaction db).2.transactions =
        db.transactions.map (fun r =>
          if r.id = id then
            ⟨r.id, app.form.source, 0, app.form.kind.as_str,
              (app.tags.get? app.form.tag_index).getD "other", app.form.date⟩
          else r)) ∧
    (∀ id, app.editing = some id → app.tags.length ≤ app.form.tag_index →
      (app.save_transaction db).2.transactions =
        db.transactions.map (fun r =>
          if r.id = id then
            ⟨r.id, app.form.source, (parseAmount app.form.amount).getD 0,
              app.form.kind.as_str, "other", app.form.date⟩
          else r)) ∧
    (app.save_transaction db).1.popup = app.popup ∧
    (app.save_transaction db).1.mode = app.mode := by
  refine ⟨?_, ?_, ?_, ?_, ?_, ?_⟩
  · intro hedit hp _
    by_cases hr : app.form.recurring <;>
      simp [App.save_transaction, hedit, hp, hr, Db.add_transaction,
        Db.add_recurring_entry]
  · intro hedit hidx
    have hget : app.tags[app.form.tag_index]? = none := by
      rw [← List.get?_eq_getElem?]
      exact List.get?_eq_none.mpr hidx
    by_cases hr : app.form.recurring <;>
      simp [App.save_transaction, hedit, hget, hr, Db.add_transaction,
        Db.add_recurring_entry]
  · intro id hedit hp _
    simp [App.save_transaction, hedit, hp, Db.update_transaction]
  · intro id hedit hidx
    have hget : app.tags[app.form.tag_index]? = none := by
      rw [← List.get?_eq_getElem?]
      exact List.get?_eq_none.mpr hidx
    simp [App.save_transaction, hedit, hget, Db.update_transaction]
  · cases hedit : app.editing <;> by_cases hr : app.form.recurring <;>
      simp [App.save_transaction, hedit, hr, App.refresh]
  · cases hedit : app.editing <;> by_cases hr : app.form.recurring <;>
      simp [App.save_transaction, hedit, hr, App.refresh]

/-- Concrete create-path form with unparsable amount text "abc" and a
valid tag index. -/
def sampleAppBadAmount : App :=
  { mode := .adding, form := ⟨"coffee", "abc", .debit, 0, "2025-02-03", false, .source⟩,
    editing := none, tags := ["food"], transactions := [], recurring_entries := [],
    selected := 0, currency := "$", popup := none }

/-- Concrete create-path form with parsable amount "5" and tag index 5
beyond the one-tag vocabulary. -/
def sampleAppBadTag : App :=
  { mode := .adding, form := ⟨"tea", "5", .debit, 5, "2025-02-03", false, .source⟩,
    editing := none, tags := ["food"], transactions := [], recurring_entries := [],
    selected := 0, currency := "$", popup := none }

/-- Concrete edit-path form (edit target id 1) with unparsable amount
text "abc" and tag index 5 beyond the vocabulary. -/
def sampleAppEditBad : App :=
  { mode := .adding, form := ⟨"rent", "abc", .debit, 5, "2025-02-03", false, .source⟩,
    editing := some 1, tags := ["food"], transactions := [], recurring_entries := [],
    selected := 0, currency := "$", popup := none }

/-- Witness for C5 exercising each fallback under its own condition on
both paths: "abc" with a valid tag index persists amount 0; index 5 with
a parsable amount persists tag "other"; the edit path behaves alike; no
save surfaces an error. -/
theorem submit_fallback_defaults_witness :
    (parseAmount sampleAppBadAmount.form.amount = none ∧
      nonFiniteAmountText sampleAppBadAmount.form.amount = false ∧
      (sampleAppBadAmount.save_transaction sampleDbEmpty).2.transactions =
        sampleDbEmpty.transactions ++
          [⟨sampleDbEmpty.nextTxId, sampleAppBadAmount.form.source, 0,
            sampleAppBadAmount.form.kind.as_str,
            (sampleAppBadAmount.tags.get? sampleAppBadAmount.form.tag_index).getD
              "other",
            sampleAppBadAmount.form.date⟩]) ∧
    (sampleAppBadTag.tags.length ≤ sampleAppBadTag.form.tag_index ∧
      (sampleAppBadTag.save_transaction sampleDbEmpty).2.transactions =
        sampleDbEmpty.transactions ++
          [⟨sampleDbEmpty.nextTxId, sampleAppBadTag.form.source,
            (parseAmount sampleAppBadTag.form.amount).getD 0,
            sampleAppBadTag.form.kind.as_str, "other",
            sampleAppBadTag.form.date⟩]) ∧
    ((sampleAppEditBad.save_transaction
        (⟨[sampleTxRow], 2, [], 1⟩ : Db)).2.transactions =
      [sampleTxRow].map (fun r =>
        if r.id = 1 then
          ⟨r.id, sampleAppEditBad.form.source, 0,
            sampleAppEditBad.form.kind.as_str,
            (sampleAppEditBad.tags.get? sampleAppEditBad.form.tag_index).getD
              "other",
            sampleAppEditBad.form.date⟩
        else r)) ∧
    ((sampleAppEditBad.save_transaction
        (⟨[sampleTxRow], 2, [], 1⟩ : Db)).2.transactions =
      [sampleTxRow].map (fun r =>
        if r.id = 1 then
          ⟨r.id, sampleAppEditBad.form.source,
            (parseAmount sampleAppEditBad.form.amount).getD 0,
            sampleAppEditBad.form.kind.as_str, "other",
            sampleAppEditBad.form.date⟩
        else r)) ∧
    (sampleAppBadAmount.save_transaction sampleDbEmpty).1.popup =
      sampleAppBadAmount.popup ∧
    (sampleAppBadAmount.save_transaction sampleDbEmpty).1.mode =
      sampleAppBadAmount.mode :=
  ⟨⟨by decide, by decide,
      (submit_fallback_defaults sampleAppBadAmount sampleDbEmpty).1 rfl (by decide)
        (by decide)⟩,
    ⟨by decide,
      (submit_fallback_defaults sampleAppBadTag sampleDbEmpty).2.1 rfl (by decide)⟩,
    (submit_fallback_defaults sampleAppEditBad (⟨[sampleTxRow], 2, [], 1⟩ : Db)).2.2.1
      1 rfl (by decide) (by decide),
    (submit_fallback_defaults sampleAppEditBad (⟨[sampleTxRow], 2, [], 1⟩ : Db)).2.2.2.1
      1 rfl (by decide),
    (submit_fallback_defaults sampleAppBadAmount sampleDbEmpty).2.2.2.2.1,
    (submit_fallback_defaults sampleAppBadAmount sampleDbEmpty).2.2.2.2.2⟩

/-! ## Edit pre-population (C8) -/

theorem position_eq_none (p : Tag → Bool) (l : List Tag)
    (h : ∀ t ∈ l, p t = false) : position p l = none := by
  induction l with
  | nil => rfl
  | cons t rest ih =>
      rw [position, if_neg, ih fun x hx => h x (List.mem_cons_of_mem t hx)]
      · rfl
      · simp [h t (List.mem_cons_self t rest)]

theorem position_of_mem (l : List Tag) (a : Tag) (h : a ∈ l) :
    ∃ i, position (fun t => t = a) l = some i ∧ l[i]? = some a := by
  induction l with
  | nil => cases h
  | cons t rest ih =>
      by_cases ht : t = a
      · exact ⟨0, by simp [position, ht], by simp [ht]⟩
      · have hmem : a ∈ rest := by
          rcases List.mem_cons.mp h with h' | h'
          · exact absurd h'.symm ht
          · exact h'
        obtain ⟨i, hpos, hget⟩ := ih hmem
        exact ⟨i + 1, by simp [position, ht, hpos], by simpa using hget⟩

theorem begin_edit_selected_eq (app : App) (tx : Transaction)
    (htx : app.transactions.get? app.selected = some tx) :
    app.begin_edit_selected =
      { app with
        form :=
          { app.form with
            source := tx.source
            amount := formatFixed2 tx.amount
            kind := tx.kind
            tag_index := (position (fun t => t = tx.tag) app.tags).getD 0
            date := tx.date
            active := .source }
        mode := .adding
        editing := some tx.id } := by
  have hne : ¬app.transactions.isEmpty := by
    intro h
    rw [List.isEmpty_iff.mp h] at htx
    cases htx
  have htx2 : app.transactions[app.selected]? = some tx := by
    rw [← List.get?_eq_getElem?]
    exact htx
  simp [App.begin_edit_selected, hne, htx2]

/-- C8: with a valid selection, edit-selected copies every field of the
selected transaction into the form (the amount as its two-decimal text,
the tag resolved to the index of its first occurrence in the vocabulary,
index 0 when absent), switches the mode to Adding and sets the edit
target to the transaction's id; with an empty list it is a no-op. -/
theorem begin_edit_copies_fields (app : App) :
    (app.transactions = [] → app.begin_edit_selected = app) ∧
    (∀ tx, app.transactions.get? app.selected = some tx →
      app.begin_edit_selected =
        { app with
          form :=
            { app.form with
              source := tx.source
              amount := formatFixed2 tx.amount
              kind := tx.kind
              tag_index := (position (fun t => t = tx.tag) app.tags).getD 0
              date := tx.date
              active := .source }
          mode := .adding
          editing := some tx.id }) ∧
    (∀ tx, app.transactions.get? app.selected = some tx → tx.tag ∉ app.tags →
      app.begin_edit_selected.form.tag_index = 0) ∧
    (∀ tx, app.transactions.get? app.selected = some tx → tx.tag ∈ app.tags →
      app.tags.get? app.begin_edit_selected.form.tag_index = some tx.tag) := by
  refine ⟨?_, ?_, ?_, ?_⟩
  · intro h
    simp [App.begin_edit_selected, h]
  · intro tx htx
    exact begin_edit_selected_eq app tx htx
  · intro tx htx hmem
    have hp : position (fun t => t = tx.tag) app.tags = none :=
      position_eq_none _ _ fun t ht => by
        simp only [decide_eq_false_iff_not]
        exact fun he => hmem (he ▸ ht)
    rw [begin_edit_selected_eq app tx htx]
    simp [hp]
  · intro tx htx hmem
    obtain ⟨i, hpos, hget⟩ := position_of_mem app.tags tx.tag hmem
    rw [begin_edit_selected_eq app tx htx]
    simp [hpos, hget]

/-- Concrete application state in Normal mode synced over a one-row store. -/
def sampleAppOneTx : App :=
  { mode := .normal, form := TransactionForm.reset "2025-02-03", editing := none,
    tags := ["food"], transactions := (⟨[sampleTxRow], 2, [], 1⟩ : Db).get_transactions,
    recurring_entries := [], selected := 0, currency := "$", popup := none }

/-- Witness for C8 at the one-row store: edit-selected pre-populates the
form from the selected transaction. -/
theorem begin_edit_copies_fields_witness :
    sampleAppOneTx.transactions.get? sampleAppOneTx.selected =
      some sampleTxRow.toTransaction ∧
    sampleAppOneTx.begin_edit_selected =
      { sampleAppOneTx with
        form :=
          { sampleAppOneTx.form with
            source := sampleTxRow.toTransaction.source
            amount := formatFixed2 sampleTxRow.toTransaction.amount
            kind := sampleTxRow.toTransaction.kind
            tag_index :=
              (position (fun t => t = sampleTxRow.toTransaction.tag)
                sampleAppOneTx.tags).getD 0
            date := sampleTxRow.toTransaction.date
            active := .source }
        mode := .adding
        editing := some sampleTxRow.toTransaction.id } :=
  ⟨by decide,
    (begin_edit_copies_fields sampleAppOneTx).2.1 sampleTxRow.toTransaction (by decide)⟩

/-! ## Decimal round-trip lemmas

The edit flow renders an amount with `formatFixed2` and the submit flow
parses it back; the lemmas below show the parse inverts the rendering on
amounts that are an exact multiple of 0.01. -/

theorem toDigitsRev_zero (f : Nat) : toDigitsRev f 0 = [] := by
  cases f <;> rfl

theorem ofDigits_toDigitsRev :
    ∀ fuel n, n ≤ fuel → Nat.ofDigits 10 (toDigitsRev fuel n) = n := by
  intro fuel
  induction fuel with
  | zero =>
      intro n h
      interval_cases n
      rfl
  | succ f ih =>
      intro n h
      match n with
      | 0 => rfl
      | m + 1 =>
          rw [toDigitsRev, Nat.ofDigits_cons,
            ih ((m + 1) / 10) (by
              have : (m + 1) / 10 < m + 1 := Nat.div_lt_self (Nat.succ_pos m) (by norm_num)
              omega)]
          exact_mod_cast Nat.mod_add_div (m + 1) 10

theorem toDigitsRev_lt :
    ∀ fuel n, ∀ d ∈ toDigitsRev fuel n, d < 10 := by
  intro fuel
  induction fuel with
  | zero => intro n d hd; cases hd
  | succ f ih =>
      intro n d hd
      match n with
      | 0 => cases hd
      | m + 1 =>
          rw [toDigitsRev, List.mem_cons] at hd
          rcases hd with hd | hd
          · rw [hd]; exact Nat.mod_lt _ (by norm_num)
          · exact ih _ d hd

theorem digitChar_facts (d : Nat) (h : d < 10) :
    charVal (Nat.digitChar d) = d ∧ (Nat.digitChar d).isDigit = true ∧
      (Nat.digitChar d).isWhitespace = false ∧
      Nat.digitChar d ≠ '-' ∧ Nat.digitChar d ≠ '+' := by
  interval_cases d <;> exact ⟨by decide, by decide, by decide, by decide, by decide⟩

theorem natToChars_ne_nil (n : Nat) : natToChars n ≠ [] := by
  rw [natToChars]
  by_cases h : n = 0
  · simp [h]
  · rw [if_neg h]
    match n, h with
    | m + 1, _ =>
        rw [toDigitsRev]
        simp

theorem mem_natToChars (n : Nat) (c : Char) (hc : c ∈ natToChars n) :
    c.isDigit = true ∧ c.isWhitespace = false ∧ c ≠ '-' ∧ c ≠ '+' := by
  rw [natToChars] at hc
  by_cases h : n = 0
  · rw [if_pos h, List.mem_singleton] at hc
    subst hc
    exact ⟨by decide, by decide, by decide, by decide⟩
  · rw [if_neg h, List.mem_reverse, List.mem_map] at hc
    obtain ⟨d, hd, hdc⟩ := hc
    have hlt := toDigitsRev_lt n n d hd
    obtain ⟨-, h1, h2, h3, h4⟩ := digitChar_facts d hlt
    exact ⟨hdc ▸ h1, hdc ▸ h2, hdc ▸ h3, hdc ▸ h4⟩

theorem allDigits_natToChars (n : Nat) : allDigits (natToChars n) = true := by
  rw [allDigits, List.all_eq_true]
  intro c hc
  exact (mem_natToChars n c hc).1

theorem valChars_natToChars (n : Nat) : valChars (natToChars n) = n := by
  rw [natToChars]
  by_cases h : n = 0
  · subst h; decide
  · rw [if_neg h, valChars, List.map_reverse, List.reverse_reverse, List.map_map]
    have hcongr : (toDigitsRev n n).map (charVal ∘ Nat.digitChar) =
        (toDigitsRev n n).map id :=
      List.map_congr_left fun d hd =>
        (digitChar_facts d (toDigitsRev_lt n n d hd)).1
    rw [hcongr, List.map_id]
    exact ofDigits_toDigitsRev n n le_rfl

theorem valChars_cons_zero (cs : List Char) : valChars ('0' :: cs) = valChars cs := by
  rw [valChars, valChars, List.map_cons, List.reverse_cons, Nat.ofDigits_append]
  have h0 : charVal '0' = 0 := by decide
  simp [h0, Nat.ofDigits]

theorem toDigitsRev_single (f c : Nat) (h1 : 0 < c) (h2 : c < 10) (h3 : c ≤ f) :
    toDigitsRev f c = [c] := by
  cases f with
  | zero => exact absurd h3 (by omega)
  | succ g =>
      cases c with
      | zero => exact absurd h1 (by omega)
      | succ m =>
          rw [toDigitsRev, Nat.mod_eq_of_lt h2, Nat.div_eq_of_lt h2, toDigitsRev_zero]

theorem natToChars_len1 (b : Nat) (hb : b < 10) : (natToChars b).length = 1 := by
  rw [natToChars]
  by_cases h : b = 0
  · simp [h]
  · rw [if_neg h, toDigitsRev_single b b (Nat.pos_of_ne_zero h) hb le_rfl]
    rfl

theorem natToChars_len2 (b : Nat) (h1 : 10 ≤ b) (h2 : b < 100) :
    (natToChars b).length = 2 := by
  rw [natToChars, if_neg (by omega)]
  match b, h1 with
  | m + 1, _ =>
      rw [toDigitsRev,
        toDigitsRev_single m ((m + 1) / 10) (by omega) (by omega) (by omega)]
      rfl

theorem pad2_facts (b : Nat) (hb : b < 100) :
    allDigits (pad2 b) = true ∧ (pad2 b).length = 2 ∧ valChars (pad2 b) = b ∧
      ∀ c ∈ pad2 b, c.isWhitespace = false := by
  rw [pad2]
  by_cases h : b < 10
  · rw [if_pos h]
    refine ⟨?_, ?_, ?_, ?_⟩
    · rw [allDigits, List.all_cons]
      simp only [Bool.and_eq_true]
      exact ⟨by decide, (allDigits_natToChars b : _)⟩
    · rw [List.length_cons, natToChars_len1 b h]
    · rw [valChars_cons_zero]
      exact valChars_natToChars b
    · intro c hc
      rcases List.mem_cons.mp hc with hc | hc
      · rw [hc]; decide
      · exact (mem_natToChars b c hc).2.1
  · rw [if_neg h]
    exact ⟨allDigits_natToChars b, natToChars_len2 b (by omega) hb,
      valChars_natToChars b, fun c hc => (mem_natToChars b c hc).2.1⟩

theorem takeWhile_digits_append (ds rest : List Char)
    (h : ∀ c ∈ ds, c.isDigit = true) :
    (ds ++ '.' :: rest).takeWhile (fun c => c.isDigit) = ds ∧
    (ds ++ '.' :: rest).dropWhile (fun c => c.isDigit) = '.' :: rest := by
  induction ds with
  | nil => exact ⟨by simp [List.takeWhile_cons], by simp [List.dropWhile_cons]⟩
  | cons c cs ih =>
      obtain ⟨h1, h2⟩ := ih fun x hx => h x (List.mem_cons_of_mem c hx)
      have hc := h c (List.mem_cons_self c cs)
      constructor
      · rw [List.cons_append, List.takeWhile_cons, hc]
        simp only [if_true, h1]
      · rw [List.cons_append, List.dropWhile_cons, hc]
        simp only [if_true, h2]

theorem takeWhile_all_digits (ds : List Char)
    (h : ∀ c ∈ ds, c.isDigit = true) :
    ds.takeWhile (fun c => c.isDigit) = ds ∧
    ds.dropWhile (fun c => c.isDigit) = [] := by
  induction ds with
  | nil => exact ⟨rfl, rfl⟩
  | cons c cs ih =>
      obtain ⟨h1, h2⟩ := ih fun x hx => h x (List.mem_cons_of_mem c hx)
      have hc := h c (List.mem_cons_self c cs)
      constructor
      · rw [List.takeWhile_cons, hc]
        simp only [if_true, h1]
      · rw [List.dropWhile_cons, hc]
        simp only [if_true, h2]

theorem dropWhile_no_ws (l : List Char)
    (hl : ∀ c ∈ l, c.isWhitespace = false) :
    l.dropWhile Char.isWhitespace = l := by
  cases l with
  | nil => rfl
  | cons c rest =>
      rw [List.dropWhile_cons, hl c (List.mem_cons_self c rest)]
      simp

theorem trimChars_of_no_ws (cs : List Char)
    (h : ∀ c ∈ cs, c.isWhitespace = false) : trimChars cs = cs := by
  rw [trimChars, dropWhile_no_ws cs h,
    dropWhile_no_ws cs.reverse (fun c hc => h c (List.mem_reverse.mp hc)),
    List.reverse_reverse]

theorem round2_div100 (n : ℕ) : round2 ((n : ℚ) / 100) = n := by
  have h1 : ((n : ℚ) / 100) * 100 + 1 / 2 = (n : ℚ) + 1 / 2 := by
    rw [div_mul_cancel₀ _ (by norm_num : (100 : ℚ) ≠ 0)]
  rw [round2, h1, Int.floor_eq_iff]
  constructor
  · push_cast
    linarith
  · push_cast
    linarith

theorem parse_formatFixed2 (n : ℕ) :
    parseAmount (formatFixed2 ((n : ℚ) / 100)) = some ((n : ℚ) / 100) := by
  have hpadf := pad2_facts (n % 100) (Nat.mod_lt n (by norm_num))
  have hfmt : formatFixed2 ((n : ℚ) / 100) =
      String.mk (natToChars (n / 100) ++ '.' :: pad2 (n % 100)) := by
    rw [formatFixed2]
    simp only [round2_div100 n, Int.natAbs_ofNat]
    rw [if_neg (by exact_mod_cast Int.natCast_nonneg n |>.not_lt)]
  rw [hfmt, parseAmount]
  have hnows : ∀ c ∈ natToChars (n / 100) ++ '.' :: pad2 (n % 100),
      c.isWhitespace = false := by
    intro c hc
    rcases List.mem_append.mp hc with hc | hc
    · exact (mem_natToChars _ c hc).2.1
    · rcases List.mem_cons.mp hc with hc | hc
      · rw [hc]; decide
      · exact hpadf.2.2.2 c hc
  rw [show (String.mk (natToChars (n / 100) ++ '.' :: pad2 (n % 100))).data =
      natToChars (n / 100) ++ '.' :: pad2 (n % 100) from rfl,
    trimChars_of_no_ws _ hnows]
  obtain ⟨htake, hdrop⟩ := takeWhile_digits_append (natToChars (n / 100))
    (pad2 (n % 100)) (fun c hc => (mem_natToChars _ c hc).1)
  cases hnc : natToChars (n / 100) with
  | nil => exact absurd hnc (natToChars_ne_nil _)
  | cons c0 cs0 =>
      have hc0 := mem_natToChars (n / 100) c0 (by rw [hnc]; exact List.mem_cons_self _ _)
      rw [hnc] at htake hdrop
      rw [List.cons_append, parseSigned, if_neg hc0.2.2.1, if_neg hc0.2.2.2,
        ← List.cons_append, parseUnsigned]
      simp only [htake, hdrop]
      rw [if_neg (by simp),
        if_pos (show (('.' : Char) :: pad2 (n % 100)).head? = some '.' from rfl)]
      simp only [List.tail_cons]
      have hdigs : ∀ c ∈ pad2 (n % 100), c.isDigit = true := by
        have hall := hpadf.1
        rw [allDigits, List.all_eq_true] at hall
        intro c hc
        exact hall c hc
      obtain ⟨htw, hdw⟩ := takeWhile_all_digits (pad2 (n % 100)) hdigs
      simp only [htw, hdw]
      rw [if_neg (by simp), if_pos trivial]
      rw [← hnc, valChars_natToChars (n / 100), hpadf.2.1, hpadf.2.2.1]
      have hab : 100 * (n / 100) + n % 100 = n := Nat.div_add_mod n 100
      have hcast : (n : ℚ) = 100 * ((n / 100 : ℕ) : ℚ) + ((n % 100 : ℕ) : ℚ) := by
        exact_mod_cast hab.symm
      rw [show ((10 : ℚ) ^ 2 : ℚ) = 100 by norm_num, hcast]
      congr 1
      ring

/-! ## Edit round trip (C9) -/

/-- Integrity invariant of the store: primary keys are unique and below
the AUTOINCREMENT counter (enforced by the schema), and kind strings are
the two values every write path of the program produces. -/
def WfDb (db : Db) : Prop :=
  (db.transactions.map TxRow.id).Nodup ∧
  (∀ r ∈ db.transactions, r.id < db.nextTxId) ∧
  (∀ r ∈ db.transactions, r.kind = "credit" ∨ r.kind = "debit")

theorem mem_get_transactions (db : Db) (tx : Transaction)
    (h : tx ∈ db.get_transactions) :
    ∃ r ∈ db.transactions, tx = r.toTransaction := by
  rw [Db.get_transactions, List.mem_map] at h
  obtain ⟨r, hr, hrt⟩ := h
  exact ⟨r, (sortByDate_perm db.transactions).mem_iff.mp hr, hrt.symm⟩

theorem as_str_from_str (s : String) (h : s = "credit" ∨ s = "debit") :
    (TransactionType.from_str s).as_str = s := by
  rcases h with h | h <;> subst h <;> decide

theorem update_transaction_self (db : Db) (r0 : TxRow) (k : TransactionType)
    (hnodup : (db.transactions.map TxRow.id).Nodup) (hmem : r0 ∈ db.transactions)
    (hk : k.as_str = r0.kind) :
    db.update_transaction r0.id r0.source r0.amount k r0.tag r0.date = db := by
  have hmap : db.transactions.map (fun r =>
      if r.id = r0.id then
        (⟨r.id, r0.source, r0.amount, k.as_str, r0.tag, r0.date⟩ : TxRow)
      else r) = db.transactions := by
    have hcongr : ∀ r ∈ db.transactions,
        (if r.id = r0.id then
          (⟨r.id, r0.source, r0.amount, k.as_str, r0.tag, r0.date⟩ : TxRow)
        else r) = r := by
      intro r hr
      by_cases hid : r.id = r0.id
      · have heq : r = r0 := List.inj_on_of_nodup_map hnodup hr hmem hid
        subst heq
        rw [if_pos hid, hk]
      · rw [if_neg hid]
    rw [List.map_congr_left hcongr]
    exact List.map_id db.transactions
  simp only [Db.update_transaction, hmap]

/-- C9 (amended): the edit round trip — edit the selected transaction,
submit without changing any form field, refresh — leaves the store and the
transaction list identical, provided the selected transaction's tag occurs
in the tag vocabulary and its amount is an exact multiple of 0.01 (so the
two-decimal amount text preserves it); without these provisos the round
trip can rewrite the row, as the counterexample shows. -/
theorem edit_round_trip (app : App) (db : Db) (today : String) (tx : Transaction)
    (hwf : WfDb db)
    (hsync : app.transactions = db.get_transactions)
    (htx : app.transactions.get? app.selected = some tx)
    (htag : tx.tag ∈ app.tags)
    (hamt : ∃ n : ℕ, tx.amount = (n : ℚ) / 100) :
    (handle_form app.begin_edit_selected .enter db today).2.1 = db ∧
    (handle_form app.begin_edit_selected .enter db today).1.transactions =
      app.transactions := by
  obtain ⟨hnodup, -, hkind⟩ := hwf
  obtain ⟨n, hn⟩ := hamt
  have htxmem : tx ∈ db.get_transactions := by
    rw [← hsync]
    exact List.get?_mem htx
  obtain ⟨r0, hr0mem, hr0⟩ := mem_get_transactions db tx htxmem
  have hk : tx.kind.as_str = r0.kind := by
    rw [hr0]
    exact as_str_from_str r0.kind (hkind r0 hr0mem)
  have hparse : parseAmount (formatFixed2 tx.amount) = some tx.amount := by
    rw [hn]
    exact parse_formatFixed2 n
  obtain ⟨i, hpos, hgeti⟩ := position_of_mem app.tags tx.tag htag
  have hupdate :
      db.update_transaction tx.id tx.source tx.amount tx.kind tx.tag tx.date = db := by
    have e1 : tx.id = r0.id := by rw [hr0]; rfl
    have e2 : tx.source = r0.source := by rw [hr0]; rfl
    have e3 : tx.amount = r0.amount := by rw [hr0]; rfl
    have e4 : tx.tag = r0.tag := by rw [hr0]; rfl
    have e5 : tx.date = r0.date := by rw [hr0]; rfl
    rw [e1, e2, e3, e4, e5]
    exact update_transaction_self db r0 tx.kind hnodup hr0mem hk
  rw [begin_edit_selected_eq app tx htx]
  have hgeti2 : app.tags.get? i = some tx.tag := by
    rw [List.get?_eq_getElem?]
    exact hgeti
  simp only [handle_form, App.save_transaction, hparse, Option.getD_some, hpos,
    hgeti2, hupdate, App.refresh, hsync]
  exact ⟨trivial, trivial⟩

/-- Witness for the amended C9 at the one-row store (tag "food" is in the
vocabulary and amount 5 is an exact multiple of 0.01). -/
theorem edit_round_trip_witness :
    WfDb (⟨[sampleTxRow], 2, [], 1⟩ : Db) ∧
    sampleAppOneTx.transactions = (⟨[sampleTxRow], 2, [], 1⟩ : Db).get_transactions ∧
    sampleAppOneTx.transactions.get? sampleAppOneTx.selected =
      some sampleTxRow.toTransaction ∧
    sampleTxRow.toTransaction.tag ∈ sampleAppOneTx.tags ∧
    (∃ n : ℕ, sampleTxRow.toTransaction.amount = (n : ℚ) / 100) ∧
    ((handle_form sampleAppOneTx.begin_edit_selected .enter
        (⟨[sampleTxRow], 2, [], 1⟩ : Db) "2025-02-03").2.1 =
      (⟨[sampleTxRow], 2, [], 1⟩ : Db) ∧
    (handle_form sampleAppOneTx.begin_edit_selected .enter
        (⟨[sampleTxRow], 2, [], 1⟩ : Db) "2025-02-03").1.transactions =
      sampleAppOneTx.transactions) :=
  ⟨⟨by decide, by decide, by decide⟩, rfl, by decide, by decide,
    ⟨500, by norm_num [sampleTxRow, TxRow.toTransaction]⟩,
    edit_round_trip sampleAppOneTx (⟨[sampleTxRow], 2, [], 1⟩ : Db) "2025-02-03"
      sampleTxRow.toTransaction ⟨by decide, by decide, by decide⟩ rfl (by decide)
      (by decide) ⟨500, by norm_num [sampleTxRow, TxRow.toTransaction]⟩⟩

/-- Concrete row whose tag "snacks" is not in the current vocabulary. -/
def snacksRow : TxRow := ⟨1, "x", 5, "debit", "snacks", "2025-01-01"⟩

/-- Store holding only the "snacks" row. -/
def snacksDb : Db := ⟨[snacksRow], 2, [], 1⟩

/-- Application state synced over the "snacks" store with a vocabulary
that lacks the "snacks" tag. -/
def snacksApp : App :=
  { mode := .normal, form := TransactionForm.reset "2025-02-03", editing := none,
    tags := ["food"], transactions := snacksDb.get_transactions,
    recurring_entries := [], selected := 0, currency := "$", popup := none }

/-- Counterexample to C9 as stated: when the selected transaction's tag is
absent from the vocabulary, the edit round trip rewrites the tag to the
first vocabulary entry, so the resulting transaction list differs from the
one before the edit. -/
theorem edit_round_trip_rewrites_unknown_tag :
    (handle_form snacksApp.begin_edit_selected .enter snacksDb
        "2025-02-03").1.transactions ≠ snacksApp.transactions := by
  have htx : snacksApp.transactions.get? snacksApp.selected =
      some snacksRow.toTransaction := by decide
  have hparse : parseAmount (formatFixed2 snacksRow.toTransaction.amount) =
      some snacksRow.toTransaction.amount := by
    show parseAmount (formatFixed2 ((5 : ℚ))) = some ((5 : ℚ))
    have h := parse_formatFixed2 500
    norm_num at h
    exact h
  rw [begin_edit_selected_eq snacksApp snacksRow.toTransaction htx]
  simp only [handle_form, App.save_transaction, hparse, Option.getD_some, App.refresh]
  simp [position, snacksApp, snacksDb, snacksRow, TxRow.toTransaction,
    Db.update_transaction, Db.get_transactions, sortByDate, insertByDate,
    TransactionType.from_str]

/-! ## Selection invariant (C6)

The event loop repeatedly feeds key events to `handle_key`; reachability
is the reflexive-transitive closure of those steps from a freshly loaded
application over a well-formed store. -/

/-- One key event processed by the dispatcher (the exit flag is dropped:
when it is set the process ends and no further state exists). -/
def stepKey (s : App × Db) (key : Key) (today : String) : App × Db :=
  ((handle_key s.1 key s.2 today).1, (handle_key s.1 key s.2 today).2.1)

/-- Transition relation of the event loop. -/
def Step (s s' : App × Db) : Prop := ∃ key today, s' = stepKey s key today

/-- States reachable from a fresh application over a given store. -/
def Reachable (tags : List Tag) (currency today0 : String) (db0 : Db)
    (s : App × Db) : Prop :=
  Relation.ReflTransGen Step (App.new tags currency today0 db0, db0) s

/-- The selection invariant of the spec: strictly below the list length
when the list is non-empty, exactly 0 when it is empty. -/
def selInv (app : App) : Prop :=
  app.selected < app.transactions.length ∨
    (app.selected = 0 ∧ app.transactions.length = 0)

/-- Inductive invariant: well-formed store, snapshot in sync with the
store, selection in bounds. -/
def Inv (s : App × Db) : Prop :=
  WfDb s.2 ∧ s.1.transactions = s.2.get_transactions ∧ selInv s.1

theorem get_transactions_length (db : Db) :
    db.get_transactions.length = db.transactions.length := by
  rw [Db.get_transactions, List.length_map]
  exact (sortByDate_perm db.transactions).length_eq

theorem refresh_selInv (app : App) (db' : Db)
    (hlen : app.transactions.length ≤ db'.get_transactions.length + 1)
    (hsel : selInv app) : selInv (App.refresh app db') := by
  rw [selInv] at hsel
  rw [selInv]
  dsimp only [App.refresh]
  by_cases hc : app.selected ≥ db'.get_transactions.length ∧ app.selected > 0
  · rw [if_pos hc]
    omega
  · rw [if_neg hc]
    rw [not_and_or] at hc
    omega

theorem wf_add (db : Db) (source : String) (amount : ℚ) (kind : TransactionType)
    (tag : Tag) (date : String) (hwf : WfDb db) :
    WfDb (db.add_transaction source amount kind tag date) := by
  obtain ⟨hnodup, hlt, hkind⟩ := hwf
  refine ⟨?_, ?_, ?_⟩
  · rw [Db.add_transaction, List.map_append, List.nodup_append]
    refine ⟨hnodup, List.nodup_singleton _, ?_⟩
    intro i hi hj
    simp only [List.map_singleton, List.mem_singleton] at hj
    rw [List.mem_map] at hi
    obtain ⟨r, hr, hri⟩ := hi
    have := hlt r hr
    omega
  · intro r hr
    rw [Db.add_transaction, List.mem_append] at hr
    rcases hr with hr | hr
    · have := hlt r hr
      simp only [Db.add_transaction]
      omega
    · rw [List.mem_singleton] at hr
      subst hr
      simp [Db.add_transaction]
  · intro r hr
    rw [Db.add_transaction, List.mem_append] at hr
    rcases hr with hr | hr
    · exact hkind r hr
    · rw [List.mem_singleton] at hr
      subst hr
      cases kind <;> simp [TransactionType.as_str]

theorem wf_add_recurring (db : Db) (source : String) (amount : ℚ)
    (kind : TransactionType) (tag : Tag) (hwf : WfDb db) :
    WfDb (db.add_recurring_entry source amount kind tag) := hwf

theorem wf_delete (db : Db) (id : ℤ) (hwf : WfDb db) :
    WfDb (db.delete_transaction id) := by
  obtain ⟨hnodup, hlt, hkind⟩ := hwf
  have hsub : List.Sublist (db.transactions.filter (fun r => r.id ≠ id))
      db.transactions := List.filter_sublist _
  refine ⟨?_, ?_, ?_⟩
  · exact List.Nodup.sublist (hsub.map TxRow.id) hnodup
  · intro r hr
    exact hlt r (hsub.subset hr)
  · intro r hr
    exact hkind r (hsub.subset hr)

theorem wf_update (db : Db) (id : ℤ) (source : String) (amount : ℚ)
    (kind : TransactionType) (tag : Tag) (date : String) (hwf : WfDb db) :
    WfDb (db.update_transaction id source amount kind tag date) := by
  obtain ⟨hnodup, hlt, hkind⟩ := hwf
  refine ⟨?_, ?_, ?_⟩
  · rw [Db.update_transaction, List.map_map]
    have : (TxRow.id ∘ fun r =>
        if r.id = id then
          (⟨r.id, source, amount, kind.as_str, tag, date⟩ : TxRow)
        else r) = TxRow.id := by
      funext r
      by_cases hr : r.id = id <;> simp [hr]
    rw [this]
    exact hnodup
  · intro r hr
    rw [Db.update_transaction, List.mem_map] at hr
    obtain ⟨r0, hr0, hrr⟩ := hr
    by_cases h0 : r0.id = id
    · rw [if_pos h0] at hrr
      subst hrr
      exact hlt r0 hr0
    · rw [if_neg h0] at hrr
      subst hrr
      exact hlt r0 hr0
  · intro r hr
    rw [Db.update_transaction, List.mem_map] at hr
    obtain ⟨r0, hr0, hrr⟩ := hr
    by_cases h0 : r0.id = id
    · rw [if_pos h0] at hrr
      subst hrr
      cases kind <;> simp [TransactionType.as_str]
    · rw [if_neg h0] at hrr
      subst hrr
      exact hkind r0 hr0

theorem update_length (db : Db) (id : ℤ) (source : String) (amount : ℚ)
    (kind : TransactionType) (tag : Tag) (date : String) :
    (db.update_transaction id source amount kind tag date).transactions.length =
      db.transactions.length := by
  rw [Db.update_transaction, List.length_map]

theorem delete_length_ge (l : List TxRow) (id : ℤ)
    (h : (l.map TxRow.id).Nodup) :
    l.length ≤ (l.filter (fun r => r.id ≠ id)).length + 1 := by
  induction l with
  | nil => simp
  | cons r rest ih =>
      rw [List.map_cons, List.nodup_cons] at h
      obtain ⟨hnotin, hnodup⟩ := h
      by_cases hr : r.id = id
      · have hall : rest.filter (fun x => x.id ≠ id) = rest := by
          rw [List.filter_eq_self]
          intro x hx
          simp only [ne_eq, decide_eq_true_eq]
          intro hxid
          apply hnotin
          rw [hr, ← hxid]
          exact List.mem_map_of_mem TxRow.id hx
        rw [List.filter_cons_of_neg (by simp [hr]), hall, List.length_cons]
      · rw [List.filter_cons_of_pos (by simp [hr]), List.length_cons,
          List.length_cons]
        exact Nat.succ_le_succ (ih hnodup)

theorem delete_length_lt (l : List TxRow) (id : ℤ) (r0 : TxRow)
    (hmem : r0 ∈ l) (hid : r0.id = id) :
    (l.filter (fun r => r.id ≠ id)).length < l.length := by
  induction l with
  | nil => cases hmem
  | cons r rest ih =>
      by_cases hr : r.id = id
      · rw [List.filter_cons_of_neg (by simp [hr]), List.length_cons]
        exact Nat.lt_succ_of_le (List.length_filter_le _ rest)
      · have hr0 : r0 ∈ rest := by
          rcases List.mem_cons.mp hmem with h' | h'
          · exact absurd (h' ▸ hid) hr
          · exact h'
        rw [List.filter_cons_of_pos (by simp [hr]), List.length_cons,
          List.length_cons]
        exact Nat.succ_lt_succ (ih hr0)

theorem inv_mutfree (app' app : App) (db : Db)
    (hwf : WfDb db) (hsync : app.transactions = db.get_transactions)
    (hsel : selInv app) (ht : app'.transactions = app.transactions)
    (hs : app'.selected = app.selected) : Inv (app', db) := by
  refine ⟨hwf, by rw [ht]; exact hsync, ?_⟩
  rw [selInv] at hsel
  rw [selInv, ht, hs]
  exact hsel

theorem begin_edit_fields (app : App) :
    app.begin_edit_selected.transactions = app.transactions ∧
    app.begin_edit_selected.selected = app.selected := by
  rw [App.begin_edit_selected]
  split
  · exact ⟨rfl, rfl⟩
  · split
    · exact ⟨rfl, rfl⟩
    · exact ⟨rfl, rfl⟩

theorem save_inv (app : App) (db : Db) (hwf : WfDb db)
    (hsync : app.transactions = db.get_transactions) (hsel : selInv app) :
    WfDb (app.save_transaction db).2 ∧
    (app.save_transaction db).1.transactions =
      (app.save_transaction db).2.get_transactions ∧
    selInv (app.save_transaction db).1 := by
  have hlen0 : app.transactions.length = db.transactions.length := by
    rw [hsync, get_transactions_length]
  rw [App.save_transaction]
  cases app.editing with
  | some id =>
      dsimp only
      refine ⟨wf_update db id _ _ _ _ _ hwf, rfl, ?_⟩
      apply refresh_selInv
      · rw [get_transactions_length, update_length]
        show app.transactions.length ≤ db.transactions.length + 1
        omega
      · exact hsel
  | none =>
      dsimp only
      by_cases hr : app.form.recurring
      · rw [if_pos hr]
        refine ⟨wf_add_recurring _ _ _ _ _ (wf_add db _ _ _ _ _ hwf), rfl, ?_⟩
        apply refresh_selInv
        · rw [get_transactions_length]
          show app.transactions.length ≤
            (db.transactions ++ [_]).length + 1
          rw [List.length_append]
          omega
        · exact hsel
      · rw [if_neg hr]
        refine ⟨wf_add db _ _ _ _ _ hwf, rfl, ?_⟩
        apply refresh_selInv
        · rw [get_transactions_length]
          show app.transactions.length ≤
            (db.transactions ++ [_]).length + 1
          rw [List.length_append]
          omega
        · exact hsel

theorem popup_delete_inv (app : App) (db : Db) (id : ℤ) (hwf : WfDb db)
    (hsync : app.transactions = db.get_transactions) (hsel : selInv app) :
    Inv ((App.refresh app (db.delete_transaction id)).close_popup,
      db.delete_transaction id) := by
  have hlen0 : app.transactions.length = db.transactions.length := by
    rw [hsync, get_transactions_length]
  have hge := delete_length_ge db.transactions id hwf.1
  have hlen : app.transactions.length ≤
      (db.delete_transaction id).get_transactions.length + 1 := by
    rw [get_transactions_length]
    show app.transactions.length ≤
      (db.transactions.filter (fun r => r.id ≠ id)).length + 1
    omega
  have hselr := refresh_selInv app (db.delete_transaction id) hlen hsel
  refine ⟨wf_delete db id hwf, rfl, ?_⟩
  rw [selInv] at hselr
  rw [selInv]
  exact hselr

theorem handle_normal_char_other (app : App) (db : Db) (today : String) (c : Char)
    (hq : c ≠ 'q') (ha : c ≠ 'a') (hs : c ≠ 's') (hd : c ≠ 'd') (he : c ≠ 'e') :
    handle_normal app (.char c) db today = (app, db, false) := by
  simp [handle_normal, hq, ha, hs, hd, he]

theorem handle_popup_char_other (app : App) (db : Db) (c : Char)
    (hy : c ≠ 'y') (hn : c ≠ 'n') :
    handle_popup app (.char c) db = (app, db, false) := by
  simp [handle_popup, hy, hn]

theorem step_inv (app : App) (db : Db) (key : Key) (today : String)
    (h : Inv (app, db)) : Inv (stepKey (app, db) key today) := by
  obtain ⟨hwf, hsync, hsel⟩ := h
  dsimp only at hwf hsync hsel
  rw [stepKey, handle_key]
  cases hmode : app.mode
  case normal =>
      cases key
      case char c =>
          by_cases hq : c = 'q'
          · subst hq
            simp only [handle_normal]
            exact ⟨hwf, hsync, hsel⟩
          by_cases ha : c = 'a'
          · subst ha
            simp only [handle_normal]
            exact inv_mutfree _ app db hwf hsync hsel rfl rfl
          by_cases hs : c = 's'
          · subst hs
            simp only [handle_normal]
            exact inv_mutfree _ app db hwf hsync hsel rfl rfl
          by_cases hd : c = 'd'
          · subst hd
            simp only [handle_normal]
            cases hsel2 : app.selected_transaction with
            | some tx =>
                exact inv_mutfree _ app db hwf hsync hsel rfl rfl
            | none =>
                exact ⟨hwf, hsync, hsel⟩
          by_cases he : c = 'e'
          · subst he
            simp only [handle_normal]
            obtain ⟨ht, hsl⟩ := begin_edit_fields app
            exact inv_mutfree _ app db hwf hsync hsel ht hsl
          · rw [handle_normal_char_other app db today c hq ha hs hd he]
            exact ⟨hwf, hsync, hsel⟩
      case up =>
          simp only [handle_normal]
          by_cases h0 : app.selected > 0
          · rw [if_pos h0]
            refine ⟨hwf, hsync, ?_⟩
            rw [selInv] at hsel
            rw [selInv]
            dsimp only
            omega
          · rw [if_neg h0]
            exact ⟨hwf, hsync, hsel⟩
      case down =>
          simp only [handle_normal]
          by_cases h0 : app.selected + 1 < app.transactions.length
          · rw [if_pos h0]
            refine ⟨hwf, hsync, ?_⟩
            rw [selInv] at hsel
            rw [selInv]
            dsimp only
            omega
          · rw [if_neg h0]
            exact ⟨hwf, hsync, hsel⟩
      case esc => exact ⟨hwf, hsync, hsel⟩
      case enter => exact ⟨hwf, hsync, hsel⟩
      case tab => exact ⟨hwf, hsync, hsel⟩
      case backspace => exact ⟨hwf, hsync, hsel⟩
      case left => exact ⟨hwf, hsync, hsel⟩
      case right => exact ⟨hwf, hsync, hsel⟩
      case other => exact ⟨hwf, hsync, hsel⟩
  case adding =>
      cases key
      case esc =>
          simp only [handle_form]
          exact inv_mutfree _ app db hwf hsync hsel rfl rfl
      case tab =>
          simp only [handle_form]
          exact inv_mutfree _ app db hwf hsync hsel rfl rfl
      case right =>
          simp only [handle_form]
          cases app.form.active <;>
            exact inv_mutfree _ app db hwf hsync hsel rfl rfl
      case left =>
          simp only [handle_form]
          cases app.form.active <;>
            exact inv_mutfree _ app db hwf hsync hsel rfl rfl
      case backspace =>
          simp only [handle_form]
          exact inv_mutfree _ app db hwf hsync hsel rfl rfl
      case char c =>
          simp only [handle_form]
          exact inv_mutfree _ app db hwf hsync hsel rfl rfl
      case enter =>
          simp only [handle_form]
          obtain ⟨hwf2, hsync2, hsel2⟩ := save_inv app db hwf hsync hsel
          exact ⟨hwf2, hsync2, hsel2⟩
      case up => exact ⟨hwf, hsync, hsel⟩
      case down => exact ⟨hwf, hsync, hsel⟩
      case other => exact ⟨hwf, hsync, hsel⟩
  case stats =>
      cases key
      case esc =>
          simp only [handle_stats]
          exact inv_mutfree _ app db hwf hsync hsel rfl rfl
      case char c => exact ⟨hwf, hsync, hsel⟩
      case enter => exact ⟨hwf, hsync, hsel⟩
      case tab => exact ⟨hwf, hsync, hsel⟩
      case backspace => exact ⟨hwf, hsync, hsel⟩
      case up => exact ⟨hwf, hsync, hsel⟩
      case down => exact ⟨hwf, hsync, hsel⟩
      case left => exact ⟨hwf, hsync, hsel⟩
      case right => exact ⟨hwf, hsync, hsel⟩
      case other => exact ⟨hwf, hsync, hsel⟩
  case popup =>
      cases key
      case char c =>
          by_cases hy : c = 'y'
          · subst hy
            simp only [handle_popup]
            cases hp : app.popup with
            | some pk =>
                cases pk with
                | confirm t m action =>
                    cases action with
                    | deleteTransaction id =>
                        exact popup_delete_inv app db id hwf hsync hsel
                    | quit =>
                        exact ⟨hwf, hsync, hsel⟩
                | info t m =>
                    exact inv_mutfree _ app db hwf hsync hsel rfl rfl
            | none =>
                exact inv_mutfree _ app db hwf hsync hsel rfl rfl
          by_cases hn : c = 'n'
          · subst hn
            simp only [handle_popup]
            exact inv_mutfree _ app db hwf hsync hsel rfl rfl
          · rw [handle_popup_char_other app db c hy hn]
            exact ⟨hwf, hsync, hsel⟩
      case esc =>
          simp only [handle_popup]
          exact inv_mutfree _ app db hwf hsync hsel rfl rfl
      case enter => exact ⟨hwf, hsync, hsel⟩
      case tab => exact ⟨hwf, hsync, hsel⟩
      case backspace => exact ⟨hwf, hsync, hsel⟩
      case up => exact ⟨hwf, hsync, hsel⟩
      case down => exact ⟨hwf, hsync, hsel⟩
      case left => exact ⟨hwf, hsync, hsel⟩
      case right => exact ⟨hwf, hsync, hsel⟩
      case other => exact ⟨hwf, hsync, hsel⟩

theorem reachable_inv (tags : List Tag) (currency today0 : String) (db0 : Db)
    (hwf0 : WfDb db0) (s : App × Db)
    (hr : Reachable tags currency today0 db0 s) : Inv s := by
  induction hr with
  | refl =>
      refine ⟨hwf0, rfl, ?_⟩
      rw [selInv]
      dsimp only [App.new]
      omega
  | @tail b c hab hbc ih =>
      obtain ⟨key, today, hstep⟩ := hbc
      rw [hstep]
      obtain ⟨bapp, bdb⟩ := b
      exact step_inv bapp bdb key today ih

/-- C6: in every reachable application state the selection is strictly
below the transaction-list length when the list is non-empty and exactly 0
when it is empty; confirming the deletion of the selected transaction at
the last index shrinks the list by one and decrements the selection
(truncated at 0, never negative); and navigating up or down never moves
the selection out of bounds. -/
theorem selection_invariant :
    (∀ (tags : List Tag) (currency today0 : String) (db0 : Db) (s : App × Db),
      WfDb db0 → Reachable tags currency today0 db0 s → selInv s.1) ∧
    (∀ (app : App) (db : Db) (t m : String) (tx : Transaction),
      WfDb db → app.transactions = db.get_transactions →
      app.transactions.get? app.selected = some tx →
      app.selected + 1 = app.transactions.length →
      app.popup = some (.confirm t m (.deleteTransaction tx.id)) →
      (handle_popup app (.char 'y') db).1.selected = app.selected - 1 ∧
      (handle_popup app (.char 'y') db).1.transactions.length =
        app.transactions.length - 1) ∧
    (∀ (app : App) (db : Db) (today : String), selInv app →
      selInv (handle_normal app .up db today).1 ∧
      selInv (handle_normal app .down db today).1) := by
  refine ⟨?_, ?_, ?_⟩
  · intro tags currency today0 db0 s hwf0 hr
    exact (reachable_inv tags currency today0 db0 hwf0 s hr).2.2
  · intro app db t m tx hwf hsync htx hlast hpopup
    simp only [handle_popup, hpopup]
    have htxmem : tx ∈ db.get_transactions := hsync ▸ List.get?_mem htx
    obtain ⟨r0, hr0mem, hr0⟩ := mem_get_transactions db tx htxmem
    have hid : r0.id = tx.id := by rw [hr0]; rfl
    have hlt := delete_length_lt db.transactions tx.id r0 hr0mem hid
    have hge := delete_length_ge db.transactions tx.id hwf.1
    have hlen2 : (db.delete_transaction tx.id).get_transactions.length =
        db.transactions.length - 1 := by
      rw [get_transactions_length]
      show (db.transactions.filter _).length = _
      omega
    have hlen0 : app.transactions.length = db.transactions.length := by
      rw [hsync, get_transactions_length]
    constructor
    · dsimp only [App.close_popup, App.refresh]
      by_cases h0 : app.selected > 0
      · have hcond : app.selected ≥
            (db.delete_transaction tx.id).get_transactions.length ∧
            app.selected > 0 := by
          rw [hlen2]
          omega
        rw [if_pos hcond]
      · rw [if_neg (fun hc => h0 hc.2)]
        omega
    · dsimp only [App.close_popup, App.refresh]
      rw [hlen2]
      omega
  · intro app db today hsel
    rw [selInv] at hsel
    constructor
    · simp only [handle_normal]
      by_cases h0 : app.selected > 0
      · rw [if_pos h0]
        rw [selInv]
        dsimp only
        omega
      · rw [if_neg h0]
        rw [selInv]
        omega
    · simp only [handle_normal]
      by_cases h0 : app.selected + 1 < app.transactions.length
      · rw [if_pos h0]
        rw [selInv]
        dsimp only
        omega
      · rw [if_neg h0]
        rw [selInv]
        omega

/-- Witness for C6: the freshly loaded state over a one-row store
satisfies the invariant, confirming the deletion of the selected last
transaction decrements the selection, and navigation stays in bounds. -/
theorem selection_invariant_witness :
    selInv (App.new ["food"] "$" "2025-02-03" (⟨[sampleTxRow], 2, [], 1⟩ : Db)) ∧
    ((handle_popup sampleAppDelete (.char 'y')
        (⟨[sampleTxRow], 2, [], 1⟩ : Db)).1.selected =
      sampleAppDelete.selected - 1 ∧
    (handle_popup sampleAppDelete (.char 'y')
        (⟨[sampleTxRow], 2, [], 1⟩ : Db)).1.transactions.length =
      sampleAppDelete.transactions.length - 1) ∧
    (selInv (handle_normal sampleAppOneTx .up sampleDbEmpty "2025-02-03").1 ∧
    selInv (handle_normal sampleAppOneTx .down sampleDbEmpty "2025-02-03").1) :=
  ⟨selection_invariant.1 ["food"] "$" "2025-02-03" (⟨[sampleTxRow], 2, [], 1⟩ : Db)
      (App.new ["food"] "$" "2025-02-03" (⟨[sampleTxRow], 2, [], 1⟩ : Db),
        (⟨[sampleTxRow], 2, [], 1⟩ : Db))
      ⟨by decide, by decide, by decide⟩ Relation.ReflTransGen.refl,
    selection_invariant.2.1 sampleAppDelete (⟨[sampleTxRow], 2, [], 1⟩ : Db)
      "Confirm Delete" "del?" sampleTxRow.toTransaction
      ⟨by decide, by decide, by decide⟩ rfl (by decide) (by decide) rfl,
    selection_invariant.2.2 sampleAppOneTx sampleDbEmpty "2025-02-03"
      (Or.inl (by decide))⟩

end FiTui
